import Mathlib

/-!
# openalpha: typed, chunked column access (`src/openalpha/data.h`)

A shallow embedding of `openalpha::Table` (a handle onto an `arrow::Table`)
and of its accessors `Assert`, `Column`, `Value`, `Visit` and `Data`.

* C++ `int` values are integers of `Int`; every place where the source stores
  into an `int` goes through `wrap32` (two's-complement wrap-around).
* A call ends in one of three ways, see `Res`: it returns, it stops in
  `LOG_FATAL`, or it leaves defined behaviour (an access outside a vector or an
  array, a cast to an array class the chunk does not have).
-/

namespace OpenAlpha

/-! ## Data model -/

/-- Element kinds of `arrow::Type::type`: the twelve kinds the accessors know,
`OTHER id` for every remaining kind of the enumeration. -/
inductive ArrowType where
  | DOUBLE | FLOAT
  | INT64 | UINT64 | INT32 | UINT32 | INT16 | UINT16 | INT8 | UINT8
  | BOOL | STRING
  | OTHER (id : Nat)
  deriving DecidableEq, Repr

/-- The template argument `T` of the accessors: the twelve C++ types the
`if constexpr` chains name, `other` for any type outside them. -/
inductive CType where
  | double | float
  | int64_t | uint64_t | int32_t | uint32_t | int16_t | uint16_t | int8_t | uint8_t
  | bool | string
  | other
  deriving DecidableEq, Repr

/-- Values handed out by the accessors. `nan` is a floating-point NaN,
`real m e` the finite floating-point number `m * 2 ^ e`, `int` a value of any
of the eight integer types, `zeroInit` the value-initialised object `T{}` of a
type outside the twelve. -/
inductive Scalar where
  | nan
  | real (m e : Int)
  | int (z : Int)
  | bool (b : Bool)
  | str (s : String)
  | zeroInit
  deriving DecidableEq, Repr

/-- One element position of an `arrow::Array`: its bit of the null bitmap and
the content of the values buffer at that position (for a null slot the buffer
content is whatever the producer left there). -/
structure Slot where
  isNull : Bool
  value : Scalar
  deriving DecidableEq, Repr

/-- A chunk, an `arrow::Array`. -/
structure Chunk where
  slots : List Slot
  deriving DecidableEq, Repr

/-- A physical column, an `arrow::Column`: `type()` (a shared pointer, possibly
null) and the chunks of `data()`. Arrow gives the chunks of a column the array
class of the column's type. -/
structure ArrowColumn where
  type : Option ArrowType
  chunks : List Chunk
  deriving DecidableEq, Repr

/-- The `arrow::Table` behind an `openalpha::Table`, with the handle's `name`:
the physical columns in order (the index column of the parquet file among
them) and the table's row count `arrow::Table::num_rows()`. -/
structure Table where
  name : String
  columns : List ArrowColumn
  rows : Int
  deriving DecidableEq, Repr

/-- The `LOG_FATAL` sites of `data.h`, one constructor per message, and the
reachable `assert(false)` of `Visit`. -/
inductive Err where
  | columnIndexOutOfRange
  | emptyDataType
  | invalidDataType
  | notRawColumn
  | notOneColumn
  | rowIndexOutOfRange
  | assertFailed
  deriving DecidableEq, Repr

/-- The error taxonomy of the specification. -/
inductive ErrKind where
  | IndexOutOfRange
  | TypeMismatch
  | UnsupportedRawAccess
  | ColumnCardinalityMismatch
  | AssertionFailure
  deriving DecidableEq, Repr

/-- Which kind of the taxonomy each `LOG_FATAL` message reports. -/
def Err.kind : Err → ErrKind
  | .columnIndexOutOfRange => .IndexOutOfRange
  | .rowIndexOutOfRange => .IndexOutOfRange
  | .emptyDataType => .TypeMismatch
  | .invalidDataType => .TypeMismatch
  | .notRawColumn => .UnsupportedRawAccess
  | .notOneColumn => .ColumnCardinalityMismatch
  | .assertFailed => .AssertionFailure

/-- Modelled from the spec: the macro `LOG_FATAL` of `logger.h` is not part of
the sources at hand; by the specification a violation "fails with a described
error" at the call that detects it, so `fatal e` ends the call. `undefined`
marks a call that left defined behaviour. -/
inductive Res (α : Type) where
  | ok (a : α)
  | fatal (e : Err)
  | undefined
  deriving DecidableEq, Repr

/-- Modelled from the spec: the constant `kNaN` of `common.h` is not part of
the sources at hand; the specification calls it the NaN sentinel. -/
def kNaN : Scalar := .nan

/-- The value-initialised object `T{}`. -/
def CType.init : CType → Scalar
  | .double => .real 0 0
  | .float => .real 0 0
  | .int64_t => .int 0
  | .uint64_t => .int 0
  | .int32_t => .int 0
  | .uint32_t => .int 0
  | .int16_t => .int 0
  | .uint16_t => .int 0
  | .int8_t => .int 0
  | .uint8_t => .int 0
  | .bool => .bool false
  | .string => .str ""
  | .other => .zeroInit

/-- Storing an integer into a C++ `int`: reduction into `[-2^31, 2^31)`. -/
def wrap32 (x : Int) : Int := (x + 2147483648) % 4294967296 - 2147483648

/-! ## Arrow primitives used by the accessors -/

/-- The member `chunk->length()`. -/
def Chunk.length (c : Chunk) : Int := c.slots.length

/-- The slot at position `i`, when `i` lies inside the chunk. -/
def Chunk.slot? (c : Chunk) (i : Int) : Option Slot :=
  if i < 0 then none else c.slots[i.toNat]?

/-- The member `chunk->IsNull(i)`; Arrow does not check `i`. -/
def Chunk.IsNull (c : Chunk) (i : Int) : Res Bool :=
  match c.slot? i with
  | none => .undefined
  | some s => .ok s.isNull

/-- The expression `std::static_pointer_cast<A>(chunk)->Value(i)` (`GetString`
for strings), `A` the array class of kind `cls`, on a chunk of the column
`col`: defined when the chunk has that class and `i` lies inside it. -/
def Chunk.Value (col : ArrowColumn) (cls : ArrowType) (c : Chunk) (i : Int) : Res Scalar :=
  if col.type = some cls then
    match c.slot? i with
    | none => .undefined
    | some s => .ok s.value
  else .undefined

/-- The member `data->null_count()` of a chunked array. -/
def ArrowColumn.null_count (col : ArrowColumn) : Nat :=
  (col.chunks.map (fun c => (c.slots.filter (fun s => s.isNull)).length)).sum

/-- The member `data->num_chunks()`. -/
def ArrowColumn.num_chunks (col : ArrowColumn) : Nat := col.chunks.length

/-- The member `(*this)->column(icol)`: an element of the vector of physical
columns; Arrow does not check `icol`. -/
def Table.column (t : Table) (icol : Int) : Option ArrowColumn :=
  if icol < 0 then none else t.columns[icol.toNat]?

/-- The member `num_columns()`: "parquet has extra one index column". -/
def Table.num_columns (t : Table) : Int := (t.columns.length : Int) - 1

/-- The member `num_rows()`: Arrow's 64-bit row count stored into an `int`. -/
def Table.num_rows (t : Table) : Int := wrap32 t.rows

/-! ## `Table::Value` -/

/-- The pattern `if (chunk->IsNull(i)) <dflt>; else <cast to cls>->Value(i)`
shared by the branches of `Value` and `Visit`. -/
def readOr (col : ArrowColumn) (cls : ArrowType) (dflt : Scalar) (chunk : Chunk) (i : Int) :
    Res Scalar :=
  match chunk.IsNull i with
  | .ok true => .ok dflt
  | .ok false => chunk.Value col cls i
  | .fatal e => .fatal e
  | .undefined => .undefined

/-- The loop `while (irow >= chunk->length()) { irow -= chunk->length();
chunk = col->chunk(++n); }` of `Value`; the last argument holds the chunks
after chunk `n`. -/
def Table.ValueWalk (chunk : Chunk) (n : Nat) (irow : Int) :
    List Chunk → Res (Nat × Chunk × Int)
  | [] => if irow ≥ chunk.length then .undefined else .ok (n, chunk, irow)
  | next :: rest =>
    if irow ≥ chunk.length then
      Table.ValueWalk next (n + 1) (wrap32 (irow - chunk.length)) rest
    else .ok (n, chunk, irow)

/-- The `if constexpr` chain of `Value` (lines 119-159). -/
def Table.ValueRead (T : CType) (col : ArrowColumn) (chunk : Chunk) (irow : Int) : Res Scalar :=
  match T with
  | .double => readOr col .DOUBLE kNaN chunk irow
  | .float => readOr col .FLOAT kNaN chunk irow
  | .int64_t => readOr col .INT64 T.init chunk irow
  | .uint64_t => readOr col .UINT64 T.init chunk irow
  | .int32_t => readOr col .INT32 T.init chunk irow
  | .uint32_t => readOr col .UINT32 T.init chunk irow
  | .int16_t => readOr col .INT16 T.init chunk irow
  | .uint16_t => readOr col .UINT16 T.init chunk irow
  | .int8_t => readOr col .INT8 T.init chunk irow
  | .uint8_t => readOr col .UINT8 T.init chunk irow
  | .bool => readOr col .BOOL T.init chunk irow
  | .string => readOr col .STRING T.init chunk irow
  | .other => .ok T.init

/-- The member `Table::Value<T>(irow, icol)`. -/
def Table.Value (T : CType) (t : Table) (irow icol : Int) : Res Scalar :=
  match t.column icol with
  | none => .undefined
  | some col =>
    if irow ≥ t.num_rows then .fatal .rowIndexOutOfRange
    else
      match col.chunks with
      | [] => .undefined
      | chunk0 :: rest =>
        match Table.ValueWalk chunk0 0 irow rest with
        | .ok (_, chunk, irow) => Table.ValueRead T col chunk irow
        | .fatal e => .fatal e
        | .undefined => .undefined

/-! ## `Table::Assert`, `Table::Column`, `Table::Data` -/

/-- The `if constexpr` chain of `Assert` that computes `res` (lines 29-56). -/
def Table.AssertRes (T : CType) (id : ArrowType) : Bool :=
  match T with
  | .double => id == .DOUBLE
  | .float => id == .FLOAT
  | .int64_t => id == .INT64
  | .uint64_t => id == .UINT64
  | .int32_t => id == .INT32
  | .uint32_t => id == .UINT32
  | .int16_t => id == .INT16
  | .uint16_t => id == .UINT16
  | .int8_t => id == .INT8
  | .uint8_t => id == .UINT8
  | .bool => id == .BOOL
  | .string => id == .STRING
  | .other => false

/-- The member `Table::Assert<T>(icol)`. -/
def Table.Assert (T : CType) (t : Table) (icol : Int) : Res Unit :=
  if icol ≥ t.num_columns then .fatal .columnIndexOutOfRange
  else
    match t.column icol with
    | none => .undefined
    | some col =>
      match col.type with
      | none => .fatal .emptyDataType
      | some type =>
        if !(Table.AssertRes T type) then .fatal .invalidDataType
        else .ok ()

/-- A `const T*` returned by `Column` and `Data`: the null pointer, or the
start of a values buffer, given by the buffer's content. -/
inductive Ptr where
  | nullptr
  | raw_values (buf : List Scalar)
  deriving DecidableEq, Repr

/-- The expression `std::static_pointer_cast<A>(chunk)->raw_values()`. -/
def Chunk.raw_values (col : ArrowColumn) (cls : ArrowType) (c : Chunk) : Res Ptr :=
  if col.type = some cls then .ok (.raw_values (c.slots.map (fun s => s.value)))
  else .undefined

/-- The `if constexpr` chain of `Column` (lines 79-102). -/
def Table.ColumnView (T : CType) (col : ArrowColumn) (chunk : Chunk) : Res Ptr :=
  match T with
  | .double => chunk.raw_values col .DOUBLE
  | .float => chunk.raw_values col .FLOAT
  | .int64_t => chunk.raw_values col .INT64
  | .uint64_t => chunk.raw_values col .UINT64
  | .int32_t => chunk.raw_values col .INT32
  | .uint32_t => chunk.raw_values col .UINT32
  | .int16_t => chunk.raw_values col .INT16
  | .uint16_t => chunk.raw_values col .UINT16
  | .int8_t => chunk.raw_values col .INT8
  | .uint8_t => chunk.raw_values col .UINT8
  | _ => .ok .nullptr

/-- The member `Table::Column<T>(icol)`. -/
def Table.Column (T : CType) (t : Table) (icol : Int) : Res Ptr :=
  match Table.Assert T t icol with
  | .fatal e => .fatal e
  | .undefined => .undefined
  | .ok _ =>
    match t.column icol with
    | none => .undefined
    | some data =>
      if data.num_chunks > 1 ∨ data.null_count > 0 then .fatal .notRawColumn
      else
        match data.chunks with
        | [] => .undefined
        | chunk :: _ => Table.ColumnView T data chunk

/-- The member `Table::Data<T>()`. -/
def Table.Data (T : CType) (t : Table) : Res Ptr :=
  if t.num_columns ≠ 1 then .fatal .notOneColumn
  else Table.Column T t 0

/-! ## `Table::Visit` -/

/-- What a run of `Visit` did: the arguments of the visitor's invocations in
order, the visitor's state afterwards, and how the call ended (`none`: the
fuel of the embedding was used up before the loop ended). -/
structure VisitRun (σ : Type) where
  calls : List (Scalar × Int)
  state : σ
  result : Option (Res Unit)

/-- The run that makes the invocation `c` first and then goes on as `r`. -/
def VisitRun.cons {σ : Type} (c : Scalar × Int) (r : VisitRun σ) : VisitRun σ :=
  { r with calls := c :: r.calls }

/-- The variables of the `for` loop of `Visit`; `rest` holds the chunks after
chunk `n`. -/
structure Table.VisitState where
  rest : List Chunk
  n : Nat
  chunk : Chunk
  i : Int
  irow_end : Int
  irow : Int
  deriving DecidableEq, Repr

/-- The inner loop `while (i >= chunk->length()) { i -= chunk->length();
irow_end -= chunk->length(); irow -= chunk->length(); chunk = col->chunk(++n); }`. -/
def Table.VisitSkip (chunk : Chunk) (n : Nat) (i irow_end irow : Int) :
    List Chunk → Res Table.VisitState
  | [] =>
    if i ≥ chunk.length then .undefined
    else .ok ⟨[], n, chunk, i, irow_end, irow⟩
  | next :: rest =>
    if i ≥ chunk.length then
      Table.VisitSkip next (n + 1) (wrap32 (i - chunk.length))
        (wrap32 (irow_end - chunk.length)) (wrap32 (irow - chunk.length)) rest
    else .ok ⟨next :: rest, n, chunk, i, irow_end, irow⟩

/-- The `if constexpr` chain of `Visit` that computes `v` (lines 183-227). In
the last branch `assert(false)` is reached; it is taken as compiled in (no
`NDEBUG`) and stops the call. -/
def Table.VisitRead (T : CType) (col : ArrowColumn) (chunk : Chunk) (i : Int) : Res Scalar :=
  match T with
  | .double => readOr col .DOUBLE kNaN chunk i
  | .float => readOr col .FLOAT kNaN chunk i
  | .int64_t => readOr col .INT64 T.init chunk i
  | .uint64_t => readOr col .UINT64 T.init chunk i
  | .int32_t => readOr col .INT32 T.init chunk i
  | .uint32_t => readOr col .UINT32 T.init chunk i
  | .int16_t => readOr col .INT16 T.init chunk i
  | .uint16_t => readOr col .UINT16 T.init chunk i
  | .int8_t => readOr col .INT8 T.init chunk i
  | .uint8_t => readOr col .UINT8 T.init chunk i
  | .bool => readOr col .BOOL T.init chunk i
  | .string => readOr col .STRING T.init chunk i
  | .other => .fatal .assertFailed

/-- The loop `for (auto i = irow_begin; i != irow_end; ++i) { ... }` of
`Visit`, one iteration per unit of fuel. The visitor is a function of its own
state; the first component of its result is the stop signal. -/
def Table.VisitLoop {σ : Type} (T : CType) (col : ArrowColumn)
    (visitor : σ → Scalar → Int → Bool × σ) :
    Nat → Table.VisitState → σ → VisitRun σ
  | 0, _, s => ⟨[], s, none⟩
  | fuel + 1, st, s =>
    if st.i = st.irow_end then ⟨[], s, some (.ok ())⟩
    else
      match Table.VisitSkip st.chunk st.n st.i st.irow_end st.irow st.rest with
      | .fatal e => ⟨[], s, some (.fatal e)⟩
      | .undefined => ⟨[], s, some .undefined⟩
      | .ok st1 =>
        match Table.VisitRead T col st1.chunk st1.i with
        | .fatal e => ⟨[], s, some (.fatal e)⟩
        | .undefined => ⟨[], s, some .undefined⟩
        | .ok v =>
          let r := visitor s v (wrap32 (st1.i - st1.irow))
          if r.1 then ⟨[(v, wrap32 (st1.i - st1.irow))], r.2, some (.ok ())⟩
          else
            VisitRun.cons (v, wrap32 (st1.i - st1.irow))
              (Table.VisitLoop T col visitor fuel { st1 with i := wrap32 (st1.i + 1) } r.2)

/-- The concatenation of a sequence of chunks. -/
def cellsOf : List Chunk → List Slot
  | [] => []
  | c :: cs => c.slots ++ cellsOf cs

/-- The logical content of a column: its chunks one after the other. -/
def ArrowColumn.cells (col : ArrowColumn) : List Slot := cellsOf col.chunks

/-- The sum of the lengths of the chunks of a column. -/
def ArrowColumn.length (col : ArrowColumn) : Int := (col.chunks.map Chunk.length).sum

/-- The member `Table::Visit<T>(irow, icol, row_offset, visitor)`, run from
the visitor state `s`. Every iteration that reaches the visitor reads a slot
further on in the column, so one unit of fuel per slot and one more for the
last test of `i != irow_end` are enough. -/
def Table.Visit {σ : Type} (T : CType) (t : Table) (irow icol row_offset : Int)
    (visitor : σ → Scalar → Int → Bool × σ) (s : σ) : VisitRun σ :=
  match t.column icol with
  | none => ⟨[], s, some .undefined⟩
  | some col =>
    let num_rows := t.num_rows
    if irow ≥ num_rows then ⟨[], s, some (.fatal .rowIndexOutOfRange)⟩
    else
      match col.chunks with
      | [] => ⟨[], s, some .undefined⟩
      | chunk :: rest =>
        let irow_begin :=
          if row_offset < 0 then max 0 (wrap32 (irow + row_offset)) else irow
        let irow_end :=
          if row_offset < 0 then wrap32 (irow + 1)
          else min (wrap32 (wrap32 (irow + row_offset) + 1)) num_rows
        Table.VisitLoop T col visitor (col.cells.length + 1)
          ⟨rest, 0, chunk, irow_begin, irow_end, irow⟩ s

/-! ## Reference behaviour the accessors are compared with -/

/-- The null sentinel of `T`: NaN for the floating-point types, `T{}` for
every other type. -/
def CType.sentinel (T : CType) : Scalar :=
  match T with
  | .double => kNaN
  | .float => kNaN
  | _ => T.init

/-- The value of a slot as type `T`: the sentinel for a null slot, the stored
value otherwise. -/
def Slot.get (T : CType) (s : Slot) : Scalar :=
  if s.isNull then T.sentinel else s.value

/-- The value of logical row `r` of a column as type `T`. -/
def ArrowColumn.at (T : CType) (col : ArrowColumn) (r : Int) : Scalar :=
  match col.cells[r.toNat]? with
  | some s => s.get T
  | none => T.sentinel

/-- The first row of the window of the specification: `max(0, centerRow +
windowOffset)` for a backward window, `centerRow` for a forward one. -/
def windowBegin (centerRow windowOffset : Int) : Int :=
  if windowOffset < 0 then max 0 (centerRow + windowOffset) else centerRow

/-- The last row of the window of the specification: `centerRow` for a
backward window, `min(centerRow + windowOffset, num_rows - 1)` for a forward
one. -/
def windowLast (num_rows centerRow windowOffset : Int) : Int :=
  if windowOffset < 0 then centerRow else min (centerRow + windowOffset) (num_rows - 1)

/-- The invocations the specification asks of `Visit`: one per row of the
window in increasing order, with the row's value as `T` and the row's position
relative to `centerRow`. -/
def windowCalls (T : CType) (col : ArrowColumn) (num_rows centerRow windowOffset : Int) :
    List (Scalar × Int) :=
  (List.range
      (windowLast num_rows centerRow windowOffset - windowBegin centerRow windowOffset
        + 1).toNat).map
    (fun (j : Nat) => (col.at T (windowBegin centerRow windowOffset + (j : Int)),
      windowBegin centerRow windowOffset + (j : Int) - centerRow))

/-- A visitor fed a sequence of invocations one by one until it signals stop;
`final` is the result recorded when it never does. -/
def feed {σ : Type} (visitor : σ → Scalar → Int → Bool × σ) (final : Option (Res Unit)) :
    List (Scalar × Int) → σ → VisitRun σ
  | [], s => ⟨[], s, final⟩
  | c :: cs, s =>
    if (visitor s c.1 c.2).1 then ⟨[c], (visitor s c.1 c.2).2, some (.ok ())⟩
    else VisitRun.cons c (feed visitor final cs (visitor s c.1 c.2).2)

/-- Consecutive slots as invocations of the visitor: each slot read as `T`,
with relative positions `d`, `d + 1`, ... -/
def relCalls (T : CType) : Int → List Slot → List (Scalar × Int)
  | _, [] => []
  | d, s :: ss => (s.get T, d) :: relCalls T (d + 1) ss

/-- The state of a visitor after the invocations `calls`, made from state `s`. -/
def stateAfter {σ : Type} (visitor : σ → Scalar → Int → Bool × σ) (s : σ)
    (calls : List (Scalar × Int)) : σ :=
  calls.foldl (fun s c => (visitor s c.1 c.2).2) s

/-- The stop signal a visitor gives on invocation number `i` (counted from 0)
when it is fed `calls` in order from state `s`; `false` when `calls` has no
such invocation. -/
def stopSignal {σ : Type} (visitor : σ → Scalar → Int → Bool × σ) (s : σ)
    (calls : List (Scalar × Int)) (i : Nat) : Bool :=
  match calls[i]? with
  | none => false
  | some c => (visitor (stateAfter visitor s (calls.take i)) c.1 c.2).1

/-- The visitor that never stops and counts its invocations. -/
def countVisitor : Nat → Scalar → Int → Bool × Nat :=
  fun s _ _ => (false, s + 1)

/-- The Arrow element kind that corresponds to `T`: double-DOUBLE,
float-FLOAT, the eight integer types with the kind of their width and sign,
bool-BOOL, string-STRING; none for a type outside these twelve. -/
def CType.arrow : CType → Option ArrowType
  | .double => some .DOUBLE
  | .float => some .FLOAT
  | .int64_t => some .INT64
  | .uint64_t => some .UINT64
  | .int32_t => some .INT32
  | .uint32_t => some .UINT32
  | .int16_t => some .INT16
  | .uint16_t => some .UINT16
  | .int8_t => some .INT8
  | .uint8_t => some .UINT8
  | .bool => some .BOOL
  | .string => some .STRING
  | .other => none

/-- The visitor that counts its invocations and signals stop on the second. -/
def stopOnSecond : Nat → Scalar → Int → Bool × Nat :=
  fun s _ _ => (decide (1 ≤ s), s + 1)

/-! ## Example tables -/

/-- Chunk of integer values without nulls. -/
def intChunk (xs : List Int) : Chunk := ⟨xs.map (fun x => ⟨false, .int x⟩)⟩

/-- The scenario of the specification: an index column and one `INT32` column
of five rows in chunks `[10, 20]` and `[30, 40, 50]`. -/
def table5 : Table :=
  ⟨"t", [⟨some .INT32, [intChunk [10, 20], intChunk [30, 40, 50]]⟩,
         ⟨some .INT64, [intChunk [0, 1, 2, 3, 4]]⟩], 5⟩

/-- The same content in chunks `[10]`, `[]`, `[20, 30, 40]`, `[50]`, `[]`. -/
def table5b : Table :=
  ⟨"t", [⟨some .INT32, [intChunk [10], intChunk [], intChunk [20, 30, 40], intChunk [50],
            intChunk []]⟩,
         ⟨some .INT64, [intChunk [0, 1, 2, 3, 4]]⟩], 5⟩

/-- A `FLOAT` column `[1.5, null, 5.0]` in front of the index column. -/
def tableF : Table :=
  ⟨"f", [⟨some .FLOAT, [⟨[⟨false, .real 3 (-1)⟩, ⟨true, .real 7 0⟩, ⟨false, .real 5 0⟩]⟩]⟩,
         ⟨some .INT64, [intChunk [0, 1, 2]]⟩], 3⟩

/-- A table without rows: a `DOUBLE` column with no chunk in front of an index
column with one empty chunk. -/
def table0 : Table :=
  ⟨"e", [⟨some .DOUBLE, []⟩, ⟨some .INT64, [intChunk []]⟩], 0⟩

/-- A table with two columns in front of the index column. -/
def table2 : Table :=
  ⟨"two", [⟨some .INT32, [intChunk [1, 2]]⟩, ⟨some .INT32, [intChunk [3, 4]]⟩,
           ⟨some .INT64, [intChunk [0, 1]]⟩], 2⟩

/-- A table that consists of the index column alone. -/
def table1 : Table := ⟨"idx", [⟨some .INT64, [intChunk [0, 1]]⟩], 2⟩

/-! ## Loop variables of `Visit` -/

/-- The initialiser of `irow_begin` in `Visit` (line 173). -/
def Table.VisitBegin (irow row_offset : Int) : Int :=
  if row_offset < 0 then max 0 (wrap32 (irow + row_offset)) else irow

/-- The initialiser of `irow_end` in `Visit` (lines 174-175). -/
def Table.VisitEnd (irow row_offset num_rows : Int) : Int :=
  if row_offset < 0 then wrap32 (irow + 1)
  else min (wrap32 (wrap32 (irow + row_offset) + 1)) num_rows

/-- The loop of `Visit` once more, this time recording the values of the loop
variables `n`, `chunk`, `i`, `irow_end`, `irow` at each invocation of the
visitor (line 228), in order. -/
def Table.VisitLoopStates {σ : Type} (T : CType) (col : ArrowColumn)
    (visitor : σ → Scalar → Int → Bool × σ) :
    Nat → Table.VisitState → σ → List Table.VisitState
  | 0, _, _ => []
  | fuel + 1, st, s =>
    if st.i = st.irow_end then []
    else
      match Table.VisitSkip st.chunk st.n st.i st.irow_end st.irow st.rest with
      | .fatal _ => []
      | .undefined => []
      | .ok st1 =>
        match Table.VisitRead T col st1.chunk st1.i with
        | .fatal _ => []
        | .undefined => []
        | .ok v =>
          let r := visitor s v (wrap32 (st1.i - st1.irow))
          if r.1 then [st1]
          else
            st1 :: Table.VisitLoopStates T col visitor fuel
              { st1 with i := wrap32 (st1.i + 1) } r.2

/-- The values of the loop variables at each invocation of the visitor in a
run of `Table::Visit<T>(irow, icol, row_offset, visitor)`. -/
def Table.VisitStates {σ : Type} (T : CType) (t : Table) (irow icol row_offset : Int)
    (visitor : σ → Scalar → Int → Bool × σ) (s : σ) : List Table.VisitState :=
  match t.column icol with
  | none => []
  | some col =>
    if irow ≥ t.num_rows then []
    else
      match col.chunks with
      | [] => []
      | chunk :: rest =>
        Table.VisitLoopStates T col visitor (col.cells.length + 1)
          ⟨rest, 0, chunk, Table.VisitBegin irow row_offset,
            Table.VisitEnd irow row_offset t.num_rows, irow⟩ s

/-- The total length of the first `n` chunks: the chunks already skipped when
the cursor stands on chunk `n`. -/
def skipped (chunks : List Chunk) (n : Nat) : Int :=
  ((chunks.take n).map Chunk.length).sum

/-- The element `p[r]` behind a pointer returned by `Column` or `Data`. -/
def Ptr.elem : Ptr → Int → Option Scalar
  | .nullptr, _ => none
  | .raw_values buf, r => if r < 0 then none else buf[r.toNat]?

/-! ## `DataRegistry` -/

/-- Modelled from the spec: the members of `DataRegistry` are declared in
`data.h` and defined outside the sources at hand. The registry is "a mapping
from dataset name to ColumnarTable"; `array_map_` is given by its entries. -/
structure DataRegistry where
  array_map_ : List (String × Table)
  deriving DecidableEq, Repr

/-- Modelled from the spec: `Has(name)`, defined outside the sources at hand,
is "true iff a table for `name` is currently cached (does not trigger
materialization)". -/
def DataRegistry.Has (reg : DataRegistry) (name : String) : Bool :=
  (reg.array_map_.lookup name).isSome

/-- Modelled from the spec: `GetData(name, retain)`, defined outside the
sources at hand, "returns the cached table for `name`, materializing it via an
external loader if absent. When `retain` is true the materialized table is
kept in the cache for future lookups; when false, the table is handed to the
caller without being persisted in the cache. Fails if `name` cannot be
resolved by the external loader." The loader is a parameter; the result is
the table with the registry afterwards, `none` for the failure. -/
def DataRegistry.GetData (loader : String → Option Table) (reg : DataRegistry)
    (name : String) (retain : Bool) : Option (Table × DataRegistry) :=
  match reg.array_map_.lookup name with
  | some t => some (t, reg)
  | none =>
    match loader name with
    | none => none
    | some t =>
      if retain then some (t, ⟨(name, t) :: reg.array_map_⟩)
      else some (t, reg)

/-- The names that have an entry in the cache, entry by entry. -/
def DataRegistry.names (reg : DataRegistry) : List String :=
  reg.array_map_.map Prod.fst

/-! ## More example tables -/

/-- An `INT32` column in chunks `[10, null]`, `[null, 40]` in front of the
index column. -/
def tableN : Table :=
  ⟨"n", [⟨some .INT32, [⟨[⟨false, .int 10⟩, ⟨true, .int 99⟩]⟩,
                        ⟨[⟨true, .int 98⟩, ⟨false, .int 40⟩]⟩]⟩,
         ⟨some .INT64, [intChunk [0, 1, 2, 3]]⟩], 4⟩

/-- A `BOOL` column `[true, false]` in one chunk in front of the index column. -/
def tableB : Table :=
  ⟨"b", [⟨some .BOOL, [⟨[⟨false, .bool true⟩, ⟨false, .bool false⟩]⟩]⟩,
         ⟨some .INT64, [intChunk [0, 1]]⟩], 2⟩

/-- An `INT32` column `[7, 8, 9]` in one chunk in front of the index column. -/
def table3 : Table :=
  ⟨"r", [⟨some .INT32, [intChunk [7, 8, 9]]⟩, ⟨some .INT64, [intChunk [0, 1, 2]]⟩], 3⟩

/-- A loader that knows the dataset `x` alone. -/
def loaderX : String → Option Table :=
  fun name => if name = "x" then some table5 else none

/-- A loader that knows no dataset. -/
def loaderNone : String → Option Table := fun _ => none

/-- A `BOOL` column `[true, null]` in front of the index column. -/
def tableNullB : Table :=
  ⟨"nb", [⟨some .BOOL, [⟨[⟨false, .bool true⟩, ⟨true, .bool true⟩]⟩]⟩,
          ⟨some .INT64, [intChunk [0, 1]]⟩], 2⟩

/-- A `STRING` column `["a", null]` in front of the index column. -/
def tableNullS : Table :=
  ⟨"ns", [⟨some .STRING, [⟨[⟨false, .str "a"⟩, ⟨true, .str "zz"⟩]⟩]⟩,
          ⟨some .INT64, [intChunk [0, 1]]⟩], 2⟩

/-- A `DOUBLE` column `[1.5, 2.0]` in one chunk in front of the index column. -/
def tableD : Table :=
  ⟨"d", [⟨some .DOUBLE, [⟨[⟨false, .real 3 (-1)⟩, ⟨false, .real 2 0⟩]⟩]⟩,
         ⟨some .INT64, [intChunk [0, 1]]⟩], 2⟩

/-- A table of `2^32 - 1` rows, a row count that `num_rows()` narrows to the
`int` -1: one `INT8` column of zeros in one chunk. -/
def tableWide : Table :=
  ⟨"w", [⟨some .INT8, [⟨List.replicate 4294967295 ⟨false, .int 0⟩⟩]⟩,
         ⟨some .INT64, [⟨List.replicate 4294967295 ⟨false, .int 0⟩⟩]⟩], 4294967295⟩

end OpenAlpha

namespace OpenAlpha

/-! ## Arithmetic of `wrap32` -/

theorem wrap32_of_range {x : Int} (h1 : -2147483648 ≤ x) (h2 : x < 2147483648) :
    wrap32 x = x := by
  unfold wrap32; omega

theorem wrap32_lt (x : Int) : wrap32 x < 2147483648 := by
  unfold wrap32; omega

theorem wrap32_ge (x : Int) : -2147483648 ≤ wrap32 x := by
  unfold wrap32; omega

theorem num_rows_lt (t : Table) : t.num_rows < 2147483648 := wrap32_lt _

/-! ## Reading one slot -/

theorem slot?_eq {c : Chunk} {i : Int} (h : 0 ≤ i) : c.slot? i = c.slots[i.toNat]? := by
  unfold Chunk.slot?
  rw [if_neg (by omega)]

theorem readOr_of_slot {col : ArrowColumn} {cls : ArrowType} {dflt : Scalar} {chunk : Chunk}
    {i : Int} {s : Slot} (hty : col.type = some cls) (hs : chunk.slot? i = some s) :
    readOr col cls dflt chunk i = .ok (if s.isNull then dflt else s.value) := by
  unfold readOr Chunk.IsNull Chunk.Value
  rw [hs]
  cases h : s.isNull <;> simp [hty, h]

theorem readOr_of_none {col : ArrowColumn} {cls : ArrowType} {dflt : Scalar} {chunk : Chunk}
    {i : Int} (hs : chunk.slot? i = none) :
    readOr col cls dflt chunk i = .undefined := by
  unfold readOr Chunk.IsNull
  rw [hs]

/-- When the column has the array class that `T` asks for, `Value` reads a
slot as `Slot.get` describes. -/
theorem ValueRead_of_slot {T : CType} {col : ArrowColumn} {a : ArrowType} {chunk : Chunk}
    {i : Int} {s : Slot} (hty : col.type = some a) (hT : Table.AssertRes T a = true)
    (hs : chunk.slot? i = some s) :
    Table.ValueRead T col chunk i = .ok (s.get T) := by
  cases T <;> simp [Table.AssertRes] at hT <;> subst hT <;>
    simp [Table.ValueRead, readOr_of_slot hty hs, Slot.get, CType.sentinel]

/-- The same for the chain of `Visit`. -/
theorem VisitRead_of_slot {T : CType} {col : ArrowColumn} {a : ArrowType} {chunk : Chunk}
    {i : Int} {s : Slot} (hty : col.type = some a) (hT : Table.AssertRes T a = true)
    (hs : chunk.slot? i = some s) :
    Table.VisitRead T col chunk i = .ok (s.get T) := by
  cases T <;> simp [Table.AssertRes] at hT <;> subst hT <;>
    simp [Table.VisitRead, readOr_of_slot hty hs, Slot.get, CType.sentinel]

/-! ## The chunk walk of `Value` -/

theorem ValueWalk_spec (rest : List Chunk) :
    ∀ (chunk : Chunk) (n : Nat) (irow : Int), 0 ≤ irow → irow < 2147483648 →
      irow < ((chunk.slots ++ cellsOf rest).length : Int) →
      ∃ n1 chunk1 irow1, Table.ValueWalk chunk n irow rest = .ok (n1, chunk1, irow1) ∧
        chunk1.slot? irow1 = (chunk.slots ++ cellsOf rest)[irow.toNat]? := by
  induction rest with
  | nil =>
    intro chunk n irow h0 _ hlt
    simp only [cellsOf, List.append_nil] at hlt ⊢
    refine ⟨n, chunk, irow, ?_, slot?_eq h0⟩
    unfold Table.ValueWalk Chunk.length
    rw [if_neg (by omega)]
  | cons next rest ih =>
    intro chunk n irow h0 h31 hlt
    unfold Table.ValueWalk
    by_cases hge : irow ≥ chunk.length
    · rw [if_pos hge]
      unfold Chunk.length at hge ⊢
      have hw : wrap32 (irow - (chunk.slots.length : Int)) = irow - chunk.slots.length :=
        wrap32_of_range (by omega) (by omega)
      rw [hw]
      simp only [cellsOf, List.length_append] at hlt
      obtain ⟨n1, chunk1, irow1, h1, h2⟩ :=
        ih next (n + 1) (irow - chunk.slots.length) (by omega) (by omega)
          (by simp only [List.length_append]; omega)
      refine ⟨n1, chunk1, irow1, h1, ?_⟩
      rw [h2]
      simp only [cellsOf]
      have happ : (chunk.slots ++ (next.slots ++ cellsOf rest))[irow.toNat]? =
          (next.slots ++ cellsOf rest)[irow.toNat - chunk.slots.length]? :=
        List.getElem?_append_right (by omega)
      rw [happ]
      congr 1
      omega
    · rw [if_neg hge]
      unfold Chunk.length at hge
      refine ⟨n, chunk, irow, rfl, ?_⟩
      rw [slot?_eq h0, List.getElem?_append_left (by omega)]

theorem cellsOf_length (cs : List Chunk) :
    ((cellsOf cs).length : Int) = (cs.map Chunk.length).sum := by
  induction cs with
  | nil => rfl
  | cons c cs ih =>
    simp only [cellsOf, List.length_append, List.map_cons, List.sum_cons, Chunk.length]
    rw [← ih]
    push_cast
    rfl

theorem cells_length (col : ArrowColumn) : (col.cells.length : Int) = col.length :=
  cellsOf_length col.chunks

/-- What `Value` returns on a valid row: the slot of that row in the column's
concatenated content, read as `T`. -/
theorem Value_eq (T : CType) (t : Table) (icol : Int) (col : ArrowColumn) (a : ArrowType)
    (r : Int) (hcol : t.column icol = some col) (hty : col.type = some a)
    (hT : Table.AssertRes T a = true) (hrows : col.length = t.num_rows)
    (h0 : 0 ≤ r) (hr : r < t.num_rows) :
    ∃ s, col.cells[r.toNat]? = some s ∧ t.Value T r icol = .ok (s.get T) := by
  have hlen := cells_length col
  have h31 := num_rows_lt t
  have hlt : r.toNat < col.cells.length := by omega
  refine ⟨col.cells[r.toNat], List.getElem?_eq_getElem hlt, ?_⟩
  unfold Table.Value
  rw [hcol]
  simp only
  rw [if_neg (by omega)]
  cases hch : col.chunks with
  | nil =>
    simp [ArrowColumn.cells, hch, cellsOf] at hlt
  | cons chunk0 rest =>
    simp only
    have hc : col.cells = chunk0.slots ++ cellsOf rest := by
      simp [ArrowColumn.cells, hch, cellsOf]
    obtain ⟨n1, chunk1, irow1, h1, h2⟩ :=
      ValueWalk_spec rest chunk0 0 r h0 (by omega) (by rw [← hc]; omega)
    rw [h1]
    simp only
    rw [← hc, List.getElem?_eq_getElem hlt] at h2
    exact ValueRead_of_slot hty hT h2

/-- C1: on a column whose chunk lengths sum to `num_rows`, `Value<T>(r, icol)`
for `0 <= r < num_rows` returns the element at position `r` of the
concatenation of the column's chunks, the null sentinel standing in for a null
slot; hence a second column with the same concatenated content and other chunk
boundaries gives the same value. -/
theorem C1_value_chunk_transparent (T : CType) (t t2 : Table) (icol icol2 : Int)
    (col col2 : ArrowColumn) (a : ArrowType) (r : Int)
    (hcol : t.column icol = some col) (hcol2 : t2.column icol2 = some col2)
    (hty : col.type = some a) (hty2 : col2.type = some a)
    (hT : Table.AssertRes T a = true)
    (hrows : col.length = t.num_rows) (hrows2 : col2.length = t2.num_rows)
    (hsame : col2.cells = col.cells)
    (h0 : 0 ≤ r) (hr : r < t.num_rows) :
    ∃ s, col.cells[r.toNat]? = some s ∧ t.Value T r icol = .ok (s.get T) ∧
      t2.Value T r icol2 = t.Value T r icol := by
  obtain ⟨s, hs, hv⟩ := Value_eq T t icol col a r hcol hty hT hrows h0 hr
  have hr2 : r < t2.num_rows := by
    rw [← hrows2, ← cells_length, hsame, cells_length, hrows]; exact hr
  obtain ⟨s2, hs2, hv2⟩ := Value_eq T t2 icol2 col2 a r hcol2 hty2 hT hrows2 h0 hr2
  rw [hsame, hs] at hs2
  cases hs2
  exact ⟨s, hs, hv, by rw [hv, hv2]⟩

/-- C1 at the scenario of the specification: chunks `[10, 20]`, `[30, 40, 50]`
give `Value(0) = 10`, `Value(2) = 30`, `Value(4) = 50`, and so do the chunks
`[10]`, `[]`, `[20, 30, 40]`, `[50]`, `[]`. -/
theorem C1_value_chunk_transparent_witness :
    (table5.Value .int32_t 0 0 = .ok (.int 10) ∧
      table5b.Value .int32_t 0 0 = table5.Value .int32_t 0 0) ∧
    (table5.Value .int32_t 2 0 = .ok (.int 30) ∧
      table5b.Value .int32_t 2 0 = table5.Value .int32_t 2 0) ∧
    (table5.Value .int32_t 4 0 = .ok (.int 50) ∧
      table5b.Value .int32_t 4 0 = table5.Value .int32_t 4 0) := by
  have h : ∀ r : Int, 0 ≤ r → r < table5.num_rows → _ := fun r h0 hr =>
    C1_value_chunk_transparent .int32_t table5 table5b 0 0
      ⟨some .INT32, [intChunk [10, 20], intChunk [30, 40, 50]]⟩
      ⟨some .INT32, [intChunk [10], intChunk [], intChunk [20, 30, 40], intChunk [50],
        intChunk []]⟩
      .INT32 r (by decide) (by decide) rfl rfl (by decide) (by decide) (by decide)
      (by decide) h0 hr
  refine ⟨?_, ?_, ?_⟩
  · obtain ⟨s, hs, hv, he⟩ := h 0 (by decide) (by decide)
    have hs2 : s = ⟨false, .int 10⟩ := by
      simpa [ArrowColumn.cells, cellsOf, intChunk] using hs.symm
    subst hs2
    exact ⟨hv, he⟩
  · obtain ⟨s, hs, hv, he⟩ := h 2 (by decide) (by decide)
    have hs2 : s = ⟨false, .int 30⟩ := by
      simpa [ArrowColumn.cells, cellsOf, intChunk] using hs.symm
    subst hs2
    exact ⟨hv, he⟩
  · obtain ⟨s, hs, hv, he⟩ := h 4 (by decide) (by decide)
    have hs2 : s = ⟨false, .int 50⟩ := by
      simpa [ArrowColumn.cells, cellsOf, intChunk] using hs.symm
    subst hs2
    exact ⟨hv, he⟩

/-! ## The loops of `Visit` -/

/-- The inner loop of `Visit` on a row inside the remaining chunks: it ends on
the chunk that holds the row, and keeps the rows still ahead, the relative
position `i - irow` and the distance `irow_end - i` (modulo `2^32`). -/
theorem VisitSkip_spec (rest : List Chunk) :
    ∀ (chunk : Chunk) (n : Nat) (i irow_end irow : Int), 0 ≤ i → i < 2147483648 →
      i < ((chunk.slots ++ cellsOf rest).length : Int) →
      irow < 2147483648 → -2147483648 ≤ irow - i →
      -2147483648 ≤ irow_end → irow_end < 2147483648 →
      ∃ st1, Table.VisitSkip chunk n i irow_end irow rest = .ok st1 ∧
        0 ≤ st1.i ∧ st1.i < st1.chunk.length ∧ st1.i ≤ i ∧
        List.drop st1.i.toNat (st1.chunk.slots ++ cellsOf st1.rest) =
          List.drop i.toNat (chunk.slots ++ cellsOf rest) ∧
        st1.i - st1.irow = i - irow ∧
        wrap32 (st1.irow_end - st1.i) = wrap32 (irow_end - i) ∧
        -2147483648 ≤ st1.irow_end ∧ st1.irow_end < 2147483648 := by
  induction rest with
  | nil =>
    intro chunk n i irow_end irow h0 _ hlt _ _ he1 he2
    simp only [cellsOf, List.append_nil] at hlt
    refine ⟨⟨[], n, chunk, i, irow_end, irow⟩, ?_, h0, ?_, le_refl _, rfl, rfl, rfl, he1, he2⟩
    · unfold Table.VisitSkip Chunk.length
      rw [if_neg (by omega)]
    · simp only [Chunk.length]; exact hlt
  | cons next rest ih =>
    intro chunk n i irow_end irow h0 h31 hlt hr1 hr2 he1 he2
    unfold Table.VisitSkip
    by_cases hge : i ≥ chunk.length
    · rw [if_pos hge]
      unfold Chunk.length at hge ⊢
      have hwi : wrap32 (i - (chunk.slots.length : Int)) = i - chunk.slots.length :=
        wrap32_of_range (by omega) (by omega)
      have hwr : wrap32 (irow - (chunk.slots.length : Int)) = irow - chunk.slots.length :=
        wrap32_of_range (by omega) (by omega)
      rw [hwi, hwr]
      simp only [cellsOf, List.length_append] at hlt
      obtain ⟨st1, h1, h2, h3, h4, h5, h6, h7, h8, h9⟩ :=
        ih next (n + 1) (i - chunk.slots.length) (wrap32 (irow_end - chunk.slots.length))
          (irow - chunk.slots.length) (by omega) (by omega)
          (by simp only [List.length_append]; omega) (by omega) (by omega)
          (wrap32_ge _) (wrap32_lt _)
      refine ⟨st1, h1, h2, h3, by omega, ?_, by omega, ?_, h8, h9⟩
      · rw [h5]
        simp only [cellsOf]
        have hnil : List.drop i.toNat chunk.slots = [] :=
          List.drop_eq_nil_of_le (by omega)
        have happ : List.drop i.toNat (chunk.slots ++ (next.slots ++ cellsOf rest)) =
            List.drop i.toNat chunk.slots ++
              List.drop (i.toNat - chunk.slots.length) (next.slots ++ cellsOf rest) :=
          List.drop_append_eq_append_drop
        rw [happ, hnil, List.nil_append]
        congr 1
        omega
      · rw [h7]
        unfold wrap32
        omega
    · rw [if_neg hge]
      refine ⟨⟨next :: rest, n, chunk, i, irow_end, irow⟩, rfl, h0, ?_, le_refl _, rfl, rfl,
        rfl, he1, he2⟩
      simp only [ge_iff_le, not_le] at hge
      exact hge

/-- The inner loop of `Visit` on a row past the last chunk runs off the chunk
vector. -/
theorem VisitSkip_undefined (rest : List Chunk) :
    ∀ (chunk : Chunk) (n : Nat) (i irow_end irow : Int), i < 2147483648 →
      ((chunk.slots ++ cellsOf rest).length : Int) ≤ i →
      Table.VisitSkip chunk n i irow_end irow rest = .undefined := by
  induction rest with
  | nil =>
    intro chunk n i irow_end irow _ hge
    simp only [cellsOf, List.append_nil] at hge
    unfold Table.VisitSkip Chunk.length
    rw [if_pos (by omega)]
  | cons next rest ih =>
    intro chunk n i irow_end irow h31 hge
    simp only [cellsOf, List.length_append] at hge
    unfold Table.VisitSkip Chunk.length
    rw [if_pos (by omega)]
    have hwi : wrap32 (i - (chunk.slots.length : Int)) = i - chunk.slots.length :=
      wrap32_of_range (by omega) (by omega)
    rw [hwi]
    exact ih next (n + 1) _ _ _ (by omega) (by simp only [List.length_append]; omega)

/-- The `for` loop of `Visit`, started on row `st.i` of the remaining chunks
with `m` rows ahead: the visitor is fed these rows in order until it signals
stop. When `irow_end` lies `m` rows ahead the loop then ends normally; when
`irow_end` cannot be met before the chunks run out, the loop runs off the
chunk vector after the last row. -/
theorem VisitLoop_spec {σ : Type} (T : CType) (col : ArrowColumn) (a : ArrowType)
    (visitor : σ → Scalar → Int → Bool × σ) (hty : col.type = some a)
    (hT : Table.AssertRes T a = true) (fin : Res Unit) :
    ∀ (m fuel : Nat) (st : Table.VisitState) (s : σ),
      0 ≤ st.i →
      st.i + m ≤ ((st.chunk.slots ++ cellsOf st.rest).length : Int) →
      ((st.chunk.slots ++ cellsOf st.rest).length : Int) < 2147483648 →
      st.irow < 2147483648 →
      st.i - st.irow + m < 2147483648 →
      -2147483648 ≤ st.irow_end → st.irow_end < 2147483648 →
      ((fin = .ok () ∧ wrap32 (st.irow_end - st.i) = m) ∨
       (fin = .undefined ∧
          st.i + m = ((st.chunk.slots ++ cellsOf st.rest).length : Int) ∧
          (wrap32 (st.irow_end - st.i) < 0 ∨ (m : Int) < wrap32 (st.irow_end - st.i)))) →
      m < fuel →
      Table.VisitLoop T col visitor fuel st s =
        feed visitor (some fin)
          (relCalls T (st.i - st.irow)
            (List.take m (List.drop st.i.toNat (st.chunk.slots ++ cellsOf st.rest)))) s := by
  intro m
  induction m with
  | zero =>
    intro fuel st s h0 hm h31 _ _ he1 he2 hfin hfuel
    obtain ⟨f, rfl⟩ : ∃ f, fuel = f + 1 := ⟨fuel - 1, by omega⟩
    simp only [List.take_zero, relCalls, feed]
    unfold Table.VisitLoop
    rcases hfin with ⟨hf, hd⟩ | ⟨hf, hlen, hd⟩
    · have heq : st.i = st.irow_end := by
        unfold wrap32 at hd
        omega
      rw [if_pos heq, hf]
    · have hne : st.i ≠ st.irow_end := by
        intro heq
        rw [heq] at hd
        unfold wrap32 at hd
        omega
      rw [if_neg hne, VisitSkip_undefined st.rest st.chunk st.n st.i st.irow_end st.irow
        (by omega) (by omega), hf]
  | succ m ih =>
    intro fuel st s h0 hm h31 hr1 hrel he1 he2 hfin hfuel
    obtain ⟨f, rfl⟩ : ∃ f, fuel = f + 1 := ⟨fuel - 1, by omega⟩
    have hne : st.i ≠ st.irow_end := by
      intro heq
      rw [heq] at hfin
      unfold wrap32 at hfin
      omega
    obtain ⟨st1, hs1, g0, glt, gle, gdrop, grel, gend, ge1, ge2⟩ :=
      VisitSkip_spec st.rest st.chunk st.n st.i st.irow_end st.irow h0 (by omega) (by omega)
        hr1 (by omega) he1 he2
    unfold Chunk.length at glt
    have hlt1 : st1.i.toNat < st1.chunk.slots.length := by omega
    have hlt1a : st1.i.toNat < (st1.chunk.slots ++ cellsOf st1.rest).length := by
      simp only [List.length_append]; omega
    have hslot : st1.chunk.slot? st1.i = some (st1.chunk.slots[st1.i.toNat]) := by
      rw [slot?_eq g0, List.getElem?_eq_getElem hlt1]
    have hcons : List.drop st.i.toNat (st.chunk.slots ++ cellsOf st.rest) =
        st1.chunk.slots[st1.i.toNat] ::
          List.drop (st1.i.toNat + 1) (st1.chunk.slots ++ cellsOf st1.rest) := by
      rw [← gdrop, List.drop_eq_getElem_cons hlt1a, List.getElem_append_left hlt1]
    have hlen : ((st1.chunk.slots ++ cellsOf st1.rest).length : Int) - st1.i =
        ((st.chunk.slots ++ cellsOf st.rest).length : Int) - st.i := by
      have h := congrArg List.length gdrop
      simp only [List.length_drop] at h
      omega
    have hw1 : wrap32 (st1.i - st1.irow) = st.i - st.irow := by
      rw [grel]; exact wrap32_of_range (by omega) (by omega)
    have hw2 : wrap32 (st1.i + 1) = st1.i + 1 := wrap32_of_range (by omega) (by omega)
    have hnat : (st1.i + 1).toNat = st1.i.toNat + 1 := by omega
    rw [hcons, List.take_succ_cons]
    simp only [relCalls, feed]
    unfold Table.VisitLoop
    rw [if_neg hne, hs1]
    simp only
    rw [VisitRead_of_slot hty hT hslot]
    simp only
    rw [hw1, hw2]
    by_cases hstop : (visitor s ((st1.chunk.slots[st1.i.toNat]).get T) (st.i - st.irow)).1 = true
    · rw [if_pos hstop, if_pos hstop]
    · rw [if_neg hstop, if_neg hstop]
      congr 1
      have hih := ih f { st1 with i := st1.i + 1 }
        (visitor s ((st1.chunk.slots[st1.i.toNat]).get T) (st.i - st.irow)).2
        (by simp only; omega) (by simp only; omega) (by simp only; omega)
        (by simp only; omega) (by simp only; omega) ge1 ge2
        (by
          simp only
          rcases hfin with ⟨hf, hd⟩ | ⟨hf, hl, hd⟩
          · left
            refine ⟨hf, ?_⟩
            rw [← gend] at hd
            unfold wrap32 at hd ⊢
            omega
          · right
            refine ⟨hf, by omega, ?_⟩
            rw [← gend] at hd
            unfold wrap32 at hd ⊢
            omega)
        (by omega)
      rw [hih]
      simp only [hnat]
      congr 2
      omega

/-- Consecutive slots of a column, as invocations, row by row. -/
theorem relCalls_eq_map (T : CType) (col : ArrowColumn) (c : Int) :
    ∀ (m : Nat) (lo : Int), 0 ≤ lo → lo + m ≤ (col.cells.length : Int) →
      relCalls T (lo - c) (List.take m (List.drop lo.toNat col.cells)) =
        (List.range m).map
          (fun (j : Nat) => (col.at T (lo + (j : Int)), lo + (j : Int) - c)) := by
  intro m
  induction m with
  | zero => intro lo _ _; rfl
  | succ m ih =>
    intro lo h0 hle
    have hlt : lo.toNat < col.cells.length := by omega
    have hnat : (lo + 1).toNat = lo.toNat + 1 := by omega
    rw [List.drop_eq_getElem_cons hlt, List.take_succ_cons, List.range_succ_eq_map]
    simp only [relCalls, List.map_cons, List.map_map]
    rw [show lo - c + 1 = lo + 1 - c by ring, ← hnat,
      ih (lo + 1) (by omega) (by push_cast at hle ⊢; omega)]
    congr 1
    · simp [ArrowColumn.at, List.getElem?_eq_getElem hlt]
    · apply List.map_congr_left
      intro j _
      simp only [Function.comp, Nat.succ_eq_add_one]
      push_cast
      rw [show lo + 1 + (j : Int) = lo + (j + 1) by ring]

/-- What `Visit` does on a valid centre row, for every 32-bit offset and every
visitor: the visitor is fed the rows of the window of the specification in
order until it signals stop. When `irow + row_offset + 1` does not fit an `int`
the wrapped end bound is never met, and a visitor that never stops makes the
loop run off the chunk vector after the last row. -/
theorem Visit_eq_feed {σ : Type} (T : CType) (t : Table) (icol : Int) (col : ArrowColumn)
    (a : ArrowType) (center off : Int) (visitor : σ → Scalar → Int → Bool × σ) (s : σ)
    (hcol : t.column icol = some col) (hty : col.type = some a)
    (hT : Table.AssertRes T a = true) (hrows : col.length = t.num_rows)
    (h0 : 0 ≤ center) (hc : center < t.num_rows)
    (ho1 : -2147483648 ≤ off) (ho2 : off < 2147483648) :
    t.Visit T center icol off visitor s =
      feed visitor
        (some (if off < 0 ∨ center + off + 1 < 2147483648 then .ok () else .undefined))
        (windowCalls T col t.num_rows center off) s := by
  have hlen := cells_length col
  have h31 := num_rows_lt t
  unfold Table.Visit
  rw [hcol]
  simp only
  rw [if_neg (by omega)]
  cases hch : col.chunks with
  | nil =>
    exfalso
    simp [ArrowColumn.cells, hch, cellsOf] at hlen
    omega
  | cons chunk rest =>
    simp only
    have hcells : col.cells = chunk.slots ++ cellsOf rest := by
      simp [ArrowColumn.cells, hch, cellsOf]
    have hN : ((chunk.slots ++ cellsOf rest).length : Int) = t.num_rows := by
      rw [← hcells]; omega
    by_cases hneg : off < 0
    · have hb : wrap32 (center + off) = center + off :=
        wrap32_of_range (by omega) (by omega)
      have he : wrap32 (center + 1) = center + 1 := wrap32_of_range (by omega) (by omega)
      rw [if_pos hneg, if_pos hneg, hb, he, if_pos (Or.inl hneg)]
      have hspec := VisitLoop_spec T col a visitor hty hT (.ok ())
        (center - max 0 (center + off) + 1).toNat (col.cells.length + 1)
        ⟨rest, 0, chunk, max 0 (center + off), center + 1, center⟩ s
        (by simp only; omega) (by simp only; omega) (by simp only; omega)
        (by simp only; omega) (by simp only; omega) (by simp only; omega)
        (by simp only; omega)
        (by
          left
          refine ⟨rfl, ?_⟩
          simp only
          rw [wrap32_of_range (x := center + 1 - max 0 (center + off)) (by omega) (by omega)]
          omega)
        (by omega)
      simp only at hspec
      rw [hspec, ← hcells, relCalls_eq_map T col center _ _ (by omega) (by omega)]
      unfold windowCalls windowBegin windowLast
      rw [if_pos hneg, if_pos hneg]
    · have hpos : 0 ≤ off := by omega
      rw [if_neg hneg, if_neg hneg]
      by_cases hov : center + off + 1 < 2147483648
      · have he : wrap32 (wrap32 (center + off) + 1) = center + off + 1 := by
          rw [wrap32_of_range (x := center + off) (by omega) (by omega)]
          exact wrap32_of_range (by omega) (by omega)
        rw [he, if_pos (Or.inr hov)]
        have hspec := VisitLoop_spec T col a visitor hty hT (.ok ())
          (min (center + off) (t.num_rows - 1) - center + 1).toNat (col.cells.length + 1)
          ⟨rest, 0, chunk, center, min (center + off + 1) t.num_rows, center⟩ s
          (by simp only; omega) (by simp only; omega) (by simp only; omega)
          (by simp only; omega) (by simp only; omega) (by simp only; omega)
          (by simp only; omega)
          (by
            left
            refine ⟨rfl, ?_⟩
            simp only
            rw [wrap32_of_range (x := min (center + off + 1) t.num_rows - center)
              (by omega) (by omega)]
            omega)
          (by omega)
        simp only at hspec
        rw [hspec, ← hcells, relCalls_eq_map T col center _ _ (by omega) (by omega)]
        unfold windowCalls windowBegin windowLast
        rw [if_neg hneg, if_neg hneg]
      · have he : wrap32 (wrap32 (center + off) + 1) = center + off + 1 - 4294967296 := by
          unfold wrap32
          omega
        have hmin : min (center + off + 1 - 4294967296) t.num_rows =
            center + off + 1 - 4294967296 := by omega
        rw [he, hmin, if_neg (by omega)]
        have hspec := VisitLoop_spec T col a visitor hty hT .undefined
          (min (center + off) (t.num_rows - 1) - center + 1).toNat (col.cells.length + 1)
          ⟨rest, 0, chunk, center, center + off + 1 - 4294967296, center⟩ s
          (by simp only; omega) (by simp only; omega) (by simp only; omega)
          (by simp only; omega) (by simp only; omega) (by simp only; omega)
          (by simp only; omega)
          (by
            right
            refine ⟨rfl, by simp only; omega, ?_⟩
            simp only
            unfold wrap32
            omega)
          (by omega)
        simp only at hspec
        rw [hspec, ← hcells, relCalls_eq_map T col center _ _ (by omega) (by omega)]
        unfold windowCalls windowBegin windowLast
        rw [if_neg hneg, if_neg hneg]

/-! ## The fuel of `Visit` -/

theorem VisitRead_ok_slot {T : CType} {col : ArrowColumn} {chunk : Chunk} {i : Int}
    {v : Scalar} (h : Table.VisitRead T col chunk i = .ok v) :
    ∃ s, chunk.slot? i = some s := by
  cases hs : chunk.slot? i with
  | some s => exact ⟨s, rfl⟩
  | none =>
    exfalso
    cases T <;> simp [Table.VisitRead, readOr_of_none hs] at h

/-- On a negative index the inner loop of `Visit` does not move. -/
theorem VisitSkip_neg (rest : List Chunk) (chunk : Chunk) (n : Nat) (i irow_end irow : Int)
    (hneg : i < 0) :
    Table.VisitSkip chunk n i irow_end irow rest = .ok ⟨rest, n, chunk, i, irow_end, irow⟩ := by
  cases rest with
  | nil =>
    unfold Table.VisitSkip Chunk.length
    rw [if_neg (by omega)]
  | cons c cs =>
    unfold Table.VisitSkip Chunk.length
    rw [if_neg (by omega)]

theorem VisitSkip_ok (rest : List Chunk) :
    ∀ (chunk : Chunk) (n : Nat) (i irow_end irow : Int) (st1 : Table.VisitState),
      Table.VisitSkip chunk n i irow_end irow rest = .ok st1 →
      0 ≤ i → i < 2147483648 →
      0 ≤ st1.i ∧ st1.i ≤ i ∧
        ((st1.chunk.slots ++ cellsOf st1.rest).length : Int) - st1.i =
          ((chunk.slots ++ cellsOf rest).length : Int) - i := by
  induction rest with
  | nil =>
    intro chunk n i irow_end irow st1 h h0 _
    unfold Table.VisitSkip at h
    by_cases hge : i ≥ chunk.length
    · rw [if_pos hge] at h
      cases h
    · rw [if_neg hge] at h
      cases h
      exact ⟨h0, le_refl _, rfl⟩
  | cons next rest ih =>
    intro chunk n i irow_end irow st1 h h0 h31
    unfold Table.VisitSkip at h
    by_cases hge : i ≥ chunk.length
    · rw [if_pos hge] at h
      unfold Chunk.length at hge h
      have hwi : wrap32 (i - (chunk.slots.length : Int)) = i - chunk.slots.length :=
        wrap32_of_range (by omega) (by omega)
      rw [hwi] at h
      obtain ⟨g0, gle, glen⟩ := ih next (n + 1) _ _ _ st1 h (by omega) (by omega)
      refine ⟨g0, by omega, ?_⟩
      rw [glen]
      simp only [cellsOf, List.length_append]
      push_cast
      omega
    · rw [if_neg hge] at h
      cases h
      exact ⟨h0, le_refl _, rfl⟩

/-- The `for` loop of `Visit` ends within one unit of fuel per slot still
ahead, and one more. -/
theorem VisitLoop_result {σ : Type} (T : CType) (col : ArrowColumn)
    (visitor : σ → Scalar → Int → Bool × σ) :
    ∀ (fuel : Nat) (st : Table.VisitState) (s : σ), st.i < 2147483648 →
      (0 ≤ st.i → ((st.chunk.slots ++ cellsOf st.rest).length : Int) - st.i ≤ fuel) →
      (Table.VisitLoop T col visitor (fuel + 1) st s).result ≠ none := by
  intro fuel
  induction fuel with
  | zero =>
    intro st s h31 hm
    unfold Table.VisitLoop
    by_cases heq : st.i = st.irow_end
    · rw [if_pos heq]; simp
    · rw [if_neg heq]
      cases hsk : Table.VisitSkip st.chunk st.n st.i st.irow_end st.irow st.rest with
      | fatal e => simp
      | undefined => simp
      | ok st1 =>
        simp only
        cases hrd : Table.VisitRead T col st1.chunk st1.i with
        | fatal e => simp
        | undefined => simp
        | ok v =>
          exfalso
          obtain ⟨x, hx⟩ := VisitRead_ok_slot hrd
          unfold Chunk.slot? at hx
          by_cases hneg : st1.i < 0
          · rw [if_pos hneg] at hx; cases hx
          · rw [if_neg hneg] at hx
            have hlt := (List.getElem?_eq_some_iff.1 hx).1
            have hi0 : 0 ≤ st.i := by
              by_contra hc
              rw [VisitSkip_neg st.rest st.chunk st.n st.i st.irow_end st.irow
                (by omega)] at hsk
              have hi : st1.i = st.i := by cases hsk; rfl
              omega
            obtain ⟨_, _, glen⟩ := VisitSkip_ok st.rest st.chunk st.n st.i st.irow_end
              st.irow st1 hsk hi0 h31
            have hm0 := hm hi0
            have e1 := List.length_append st.chunk.slots (cellsOf st.rest)
            have e2 := List.length_append st1.chunk.slots (cellsOf st1.rest)
            omega
  | succ f ih =>
    intro st s h31 hm
    unfold Table.VisitLoop
    by_cases heq : st.i = st.irow_end
    · rw [if_pos heq]; simp
    · rw [if_neg heq]
      cases hsk : Table.VisitSkip st.chunk st.n st.i st.irow_end st.irow st.rest with
      | fatal e => simp
      | undefined => simp
      | ok st1 =>
        simp only
        cases hrd : Table.VisitRead T col st1.chunk st1.i with
        | fatal e => simp
        | undefined => simp
        | ok v =>
          simp only
          by_cases hstop : (visitor s v (wrap32 (st1.i - st1.irow))).1 = true
          · rw [if_pos hstop]; simp
          · rw [if_neg hstop]
            simp only [VisitRun.cons]
            apply ih
            · exact wrap32_lt _
            · simp only
              intro hnext
              obtain ⟨x, hx⟩ := VisitRead_ok_slot hrd
              unfold Chunk.slot? at hx
              by_cases hneg : st1.i < 0
              · rw [if_pos hneg] at hx; cases hx
              · rw [if_neg hneg] at hx
                have hlt := (List.getElem?_eq_some_iff.1 hx).1
                have hi0 : 0 ≤ st.i := by
                  by_contra hc
                  rw [VisitSkip_neg st.rest st.chunk st.n st.i st.irow_end st.irow
                    (by omega)] at hsk
                  have hi : st1.i = st.i := by cases hsk; rfl
                  omega
                obtain ⟨_, gle, glen⟩ := VisitSkip_ok st.rest st.chunk st.n st.i st.irow_end
                  st.irow st1 hsk hi0 h31
                have hm0 := hm hi0
                have e1 := List.length_append st.chunk.slots (cellsOf st.rest)
                have e2 := List.length_append st1.chunk.slots (cellsOf st1.rest)
                have hw : wrap32 (st1.i + 1) = st1.i + 1 := by
                  unfold wrap32 at hnext ⊢
                  omega
                rw [hw]
                omega

/-- The embedding of `Visit` never uses up its fuel: on every input the run
ends in a return, in `LOG_FATAL` or outside defined behaviour. -/
theorem Visit_result_ne_none {σ : Type} (T : CType) (t : Table) (irow icol row_offset : Int)
    (visitor : σ → Scalar → Int → Bool × σ) (s : σ) :
    (t.Visit T irow icol row_offset visitor s).result ≠ none := by
  unfold Table.Visit
  cases hcol : t.column icol with
  | none => simp
  | some col =>
    simp only
    by_cases hr : irow ≥ t.num_rows
    · rw [if_pos hr]; simp
    · rw [if_neg hr]
      cases hch : col.chunks with
      | nil => simp
      | cons chunk rest =>
        simp only
        have hcells : col.cells = chunk.slots ++ cellsOf rest := by
          simp [ArrowColumn.cells, hch, cellsOf]
        apply VisitLoop_result
        · simp only
          have h1 := wrap32_lt (irow + row_offset)
          have h2 := num_rows_lt t
          by_cases hneg : row_offset < 0
          · rw [if_pos hneg]; omega
          · rw [if_neg hneg]; omega
        · simp only
          intro h0
          rw [← hcells]
          omega

/-! ## Feeding a visitor -/

theorem feed_never_stop {σ : Type} (visitor : σ → Scalar → Int → Bool × σ)
    (fin : Option (Res Unit)) (hno : ∀ s v p, (visitor s v p).1 = false) :
    ∀ (w : List (Scalar × Int)) (s : σ),
      feed visitor fin w s = ⟨w, stateAfter visitor s w, fin⟩ := by
  intro w
  induction w with
  | nil => intro s; rfl
  | cons c cs ih =>
    intro s
    unfold feed
    rw [if_neg (by rw [hno]; simp), ih]
    rfl

theorem stopSignal_cons {σ : Type} (visitor : σ → Scalar → Int → Bool × σ) (s : σ)
    (c : Scalar × Int) (cs : List (Scalar × Int)) (i : Nat) :
    stopSignal visitor s (c :: cs) (i + 1) =
      stopSignal visitor (visitor s c.1 c.2).2 cs i := by
  simp [stopSignal, stateAfter]

theorem feed_stop_at {σ : Type} (visitor : σ → Scalar → Int → Bool × σ)
    (fin : Option (Res Unit)) :
    ∀ (w : List (Scalar × Int)) (s : σ) (j : Nat),
      (∀ i, i < j → stopSignal visitor s w i = false) → stopSignal visitor s w j = true →
      feed visitor fin w s =
        ⟨w.take (j + 1), stateAfter visitor s (w.take (j + 1)), some (.ok ())⟩ := by
  intro w
  induction w with
  | nil =>
    intro s j _ hstop
    simp [stopSignal] at hstop
  | cons c cs ih =>
    intro s j hbefore hstop
    unfold feed
    cases j with
    | zero =>
      have h : (visitor s c.1 c.2).1 = true := by
        simpa [stopSignal, stateAfter] using hstop
      rw [if_pos h]
      simp [stateAfter]
    | succ j =>
      have h : (visitor s c.1 c.2).1 = false := by
        simpa [stopSignal, stateAfter] using hbefore 0 (by omega)
      rw [if_neg (by rw [h]; simp)]
      rw [ih (visitor s c.1 c.2).2 j
        (fun i hi => by rw [← stopSignal_cons]; exact hbefore (i + 1) (by omega))
        (by rw [← stopSignal_cons]; exact hstop)]
      simp [VisitRun.cons, stateAfter]

theorem windowCalls_length (T : CType) (col : ArrowColumn) (n c off : Int) :
    (windowCalls T col n c off).length = (windowLast n c off - windowBegin c off + 1).toNat := by
  simp [windowCalls]

/-! ## Window claims -/

/-- C2: backward window. For `k > 0` and `0 <= centerRow < num_rows`, on a
column whose chunk lengths sum to `num_rows` and with a visitor that never
signals stop, `Visit<T>(centerRow, icol, -k, visitor)` returns after invoking
the visitor exactly `min(k, centerRow) + 1` times, on the rows
`max(0, centerRow - k), ..., centerRow` in increasing order, each with the
relative position `row - centerRow`, that is `-min(k, centerRow), ..., 0`,
whatever the chunk boundaries are. -/
theorem C2_backward_window {σ : Type} (T : CType) (t : Table) (icol : Int)
    (col : ArrowColumn) (a : ArrowType) (centerRow k : Int)
    (visitor : σ → Scalar → Int → Bool × σ) (s : σ)
    (hcol : t.column icol = some col) (hty : col.type = some a)
    (hT : Table.AssertRes T a = true) (hrows : col.length = t.num_rows)
    (hk : 0 < k) (hk32 : k ≤ 2147483648)
    (h0 : 0 ≤ centerRow) (hc : centerRow < t.num_rows)
    (hno : ∀ s v p, (visitor s v p).1 = false) :
    (t.Visit T centerRow icol (-k) visitor s).result = some (.ok ()) ∧
    (t.Visit T centerRow icol (-k) visitor s).calls =
      (List.range (min k centerRow + 1).toNat).map
        (fun (j : Nat) => (col.at T (max 0 (centerRow - k) + (j : Int)),
          max 0 (centerRow - k) + (j : Int) - centerRow)) ∧
    (t.Visit T centerRow icol (-k) visitor s).calls.map Prod.snd =
      (List.range (min k centerRow + 1).toNat).map
        (fun (j : Nat) => (j : Int) - min k centerRow) ∧
    (t.Visit T centerRow icol (-k) visitor s).calls.length = (min k centerRow + 1).toNat ∧
    (t.Visit T centerRow icol (-k) visitor s).state =
      stateAfter visitor s (t.Visit T centerRow icol (-k) visitor s).calls := by
  have hneg : -k < 0 := by omega
  have hcalls : windowCalls T col t.num_rows centerRow (-k) =
      (List.range (min k centerRow + 1).toNat).map
        (fun (j : Nat) => (col.at T (max 0 (centerRow - k) + (j : Int)),
          max 0 (centerRow - k) + (j : Int) - centerRow)) := by
    unfold windowCalls windowBegin windowLast
    rw [if_pos hneg, if_pos hneg, ← Int.sub_eq_add_neg,
      show (centerRow - max 0 (centerRow - k) + 1).toNat = (min k centerRow + 1).toNat by
        omega]
  rw [Visit_eq_feed T t icol col a centerRow (-k) visitor s hcol hty hT hrows h0 hc
    (by omega) (by omega), feed_never_stop visitor _ hno, if_pos (Or.inl hneg), hcalls]
  refine ⟨rfl, rfl, ?_, by simp, rfl⟩
  simp only [List.map_map]
  apply List.map_congr_left
  intro j _
  simp only [Function.comp]
  omega

/-- C2 at the scenario of the specification: on chunks `[10, 20]`,
`[30, 40, 50]`, `Visit(2, col, -1)` calls the visitor with `(20, -1)` and then
with `(30, 0)`. -/
theorem C2_backward_window_witness :
    (table5.Visit .int32_t 2 0 (-1) countVisitor 0).calls =
      [(.int 20, -1), (.int 30, 0)] :=
  (C2_backward_window .int32_t table5 0
    ⟨some .INT32, [intChunk [10, 20], intChunk [30, 40, 50]]⟩ .INT32 2 1 countVisitor 0
    (by decide) rfl (by decide) (by decide) (by decide) (by decide) (by decide) (by decide)
    (fun _ _ _ => rfl)).2.1.trans (by decide)

/-- C3: forward window. For `k >= 0` and `0 <= centerRow < num_rows` with
`centerRow + k + 1` representable as a 32-bit `int`, on a column whose chunk
lengths sum to `num_rows` and with a visitor that never signals stop,
`Visit<T>(centerRow, icol, k, visitor)` returns after invoking the visitor
exactly `min(k, num_rows - 1 - centerRow) + 1` times, on the rows `centerRow,
..., min(centerRow + k, num_rows - 1)` in increasing order with the relative
positions `0, 1, ...`; for `k = 0` it visits exactly the row `centerRow`. -/
theorem C3_forward_window {σ : Type} (T : CType) (t : Table) (icol : Int)
    (col : ArrowColumn) (a : ArrowType) (centerRow k : Int)
    (visitor : σ → Scalar → Int → Bool × σ) (s : σ)
    (hcol : t.column icol = some col) (hty : col.type = some a)
    (hT : Table.AssertRes T a = true) (hrows : col.length = t.num_rows)
    (hk : 0 ≤ k) (hk32 : centerRow + k + 1 < 2147483648)
    (h0 : 0 ≤ centerRow) (hc : centerRow < t.num_rows)
    (hno : ∀ s v p, (visitor s v p).1 = false) :
    (t.Visit T centerRow icol k visitor s).result = some (.ok ()) ∧
    (t.Visit T centerRow icol k visitor s).calls =
      (List.range (min k (t.num_rows - 1 - centerRow) + 1).toNat).map
        (fun (j : Nat) => (col.at T (centerRow + (j : Int)), (j : Int))) ∧
    (t.Visit T centerRow icol k visitor s).calls.length =
      (min k (t.num_rows - 1 - centerRow) + 1).toNat ∧
    (centerRow + (((min k (t.num_rows - 1 - centerRow) + 1).toNat : Nat) : Int) - 1 =
      min (centerRow + k) (t.num_rows - 1)) ∧
    (k = 0 → (t.Visit T centerRow icol k visitor s).calls = [(col.at T centerRow, 0)]) ∧
    (t.Visit T centerRow icol k visitor s).state =
      stateAfter visitor s (t.Visit T centerRow icol k visitor s).calls := by
  have hneg : ¬ k < 0 := by omega
  have hcalls : windowCalls T col t.num_rows centerRow k =
      (List.range (min k (t.num_rows - 1 - centerRow) + 1).toNat).map
        (fun (j : Nat) => (col.at T (centerRow + (j : Int)), (j : Int))) := by
    unfold windowCalls windowBegin windowLast
    rw [if_neg hneg, if_neg hneg,
      show (min (centerRow + k) (t.num_rows - 1) - centerRow + 1).toNat =
        (min k (t.num_rows - 1 - centerRow) + 1).toNat by omega]
    apply List.map_congr_left
    intro j _
    rw [show centerRow + (j : Int) - centerRow = (j : Int) by omega]
  rw [Visit_eq_feed T t icol col a centerRow k visitor s hcol hty hT hrows h0 hc
    (by omega) (by omega), feed_never_stop visitor _ hno, if_pos (Or.inr hk32), hcalls]
  refine ⟨rfl, rfl, by simp, by omega, ?_, rfl⟩
  intro hk0
  subst hk0
  rw [show (min 0 (t.num_rows - 1 - centerRow) + 1).toNat = 1 by omega,
    show List.range 1 = [0] from rfl]
  simp

/-- C3 on chunks `[10, 20]`, `[30, 40, 50]`: `Visit(3, col, 5)` is clipped at
the last row and calls the visitor with `(40, 0)` and then with `(50, 1)`. -/
theorem C3_forward_window_witness :
    (table5.Visit .int32_t 3 0 5 countVisitor 0).calls = [(.int 40, 0), (.int 50, 1)] :=
  (C3_forward_window .int32_t table5 0
    ⟨some .INT32, [intChunk [10, 20], intChunk [30, 40, 50]]⟩ .INT32 3 5 countVisitor 0
    (by decide) rfl (by decide) (by decide) (by decide) (by decide) (by decide) (by decide)
    (fun _ _ _ => rfl)).2.1.trans (by decide)

/-- C10: early exit. For a valid `centerRow` and every 32-bit `windowOffset`,
a visitor that signals stop on its `j`-th invocation and not before is invoked
exactly `j` times, on the first `j` rows of the window in order, and `Visit`
returns; a visitor that stops on its first invocation is invoked once, on the
first row of the window (`max(0, centerRow + windowOffset)` for a backward
window, `centerRow` for a forward one). -/
theorem C10_early_exit {σ : Type} (T : CType) (t : Table) (icol : Int)
    (col : ArrowColumn) (a : ArrowType) (centerRow windowOffset : Int)
    (visitor : σ → Scalar → Int → Bool × σ) (s : σ) (j : Nat)
    (hcol : t.column icol = some col) (hty : col.type = some a)
    (hT : Table.AssertRes T a = true) (hrows : col.length = t.num_rows)
    (h0 : 0 ≤ centerRow) (hc : centerRow < t.num_rows)
    (ho1 : -2147483648 ≤ windowOffset) (ho2 : windowOffset < 2147483648)
    (hj : 1 ≤ j)
    (hbefore : ∀ i, i < j - 1 →
      stopSignal visitor s (windowCalls T col t.num_rows centerRow windowOffset) i = false)
    (hstop :
      stopSignal visitor s (windowCalls T col t.num_rows centerRow windowOffset) (j - 1)
        = true) :
    (t.Visit T centerRow icol windowOffset visitor s).calls =
      (windowCalls T col t.num_rows centerRow windowOffset).take j ∧
    (t.Visit T centerRow icol windowOffset visitor s).calls.length = j ∧
    (t.Visit T centerRow icol windowOffset visitor s).result = some (.ok ()) ∧
    (t.Visit T centerRow icol windowOffset visitor s).state =
      stateAfter visitor s (t.Visit T centerRow icol windowOffset visitor s).calls ∧
    (j = 1 → (t.Visit T centerRow icol windowOffset visitor s).calls =
      [(col.at T (windowBegin centerRow windowOffset),
        windowBegin centerRow windowOffset - centerRow)]) := by
  have hjlt : j - 1 < (windowCalls T col t.num_rows centerRow windowOffset).length := by
    by_contra hge
    unfold stopSignal at hstop
    rw [List.getElem?_eq_none (by omega)] at hstop
    simp at hstop
  rw [Visit_eq_feed T t icol col a centerRow windowOffset visitor s hcol hty hT hrows h0 hc
    ho1 ho2, feed_stop_at visitor _ _ s (j - 1) hbefore hstop,
    show j - 1 + 1 = j by omega]
  refine ⟨rfl, ?_, rfl, rfl, ?_⟩
  · simp only [List.length_take]
    omega
  · intro hj1
    subst hj1
    simp only
    rw [windowCalls_length] at hjlt
    unfold windowCalls
    obtain ⟨n, hn⟩ : ∃ n, (windowLast t.num_rows centerRow windowOffset -
        windowBegin centerRow windowOffset + 1).toNat = n + 1 :=
      ⟨(windowLast t.num_rows centerRow windowOffset -
        windowBegin centerRow windowOffset + 1).toNat - 1, by omega⟩
    rw [hn, List.range_succ_eq_map]
    simp

/-- C10 on chunks `[10]`, `[]`, `[20, 30, 40]`, `[50]`, `[]` with the largest
forward offset: a visitor that stops on its second invocation is invoked on
rows 0 and 1 and on no other row. -/
theorem C10_early_exit_witness :
    (table5b.Visit .int32_t 0 0 2147483647 stopOnSecond 0).calls =
      [(.int 10, 0), (.int 20, 1)] :=
  (C10_early_exit .int32_t table5b 0
    ⟨some .INT32, [intChunk [10], intChunk [], intChunk [20, 30, 40], intChunk [50],
      intChunk []]⟩ .INT32 0 2147483647 stopOnSecond 0 2
    (by decide) rfl (by decide) (by decide) (by decide) (by decide) (by decide) (by decide)
    (by decide) (by decide) (by decide)).1.trans (by decide)

/-! ## Null policy and row check -/

/-- C4: null policy of `Value`. On a valid row of a column of the kind of `T`,
when the slot is null `Value<T>` returns the NaN sentinel `kNaN` for `double`
and `float`, the integer 0 for each of the eight integer types, `false` for
`bool` and the empty string for `std::string`, which is `T{}` in each of these
ten cases; when the slot is not null it returns the stored value unchanged; in
every case the call returns a value and does not fail. -/
theorem C4_null_policy (T : CType) (t : Table) (icol : Int) (col : ArrowColumn)
    (a : ArrowType) (r : Int)
    (hcol : t.column icol = some col) (hty : col.type = some a)
    (hT : Table.AssertRes T a = true) (hrows : col.length = t.num_rows)
    (h0 : 0 ≤ r) (hr : r < t.num_rows) :
    ∃ s, col.cells[r.toNat]? = some s ∧
      (s.isNull = true → (T = .double ∨ T = .float) →
        t.Value T r icol = .ok kNaN ∧ t.Value T r icol = .ok .nan) ∧
      (s.isNull = true →
        (T = .int64_t ∨ T = .uint64_t ∨ T = .int32_t ∨ T = .uint32_t ∨
          T = .int16_t ∨ T = .uint16_t ∨ T = .int8_t ∨ T = .uint8_t) →
        t.Value T r icol = .ok (.int 0)) ∧
      (s.isNull = true → T = .bool → t.Value T r icol = .ok (.bool false)) ∧
      (s.isNull = true → T = .string → t.Value T r icol = .ok (.str "")) ∧
      (s.isNull = true → T ≠ .double → T ≠ .float → t.Value T r icol = .ok T.init) ∧
      (s.isNull = false → t.Value T r icol = .ok s.value) ∧
      (∃ v, t.Value T r icol = .ok v) := by
  obtain ⟨s, hs, hv⟩ := Value_eq T t icol col a r hcol hty hT hrows h0 hr
  refine ⟨s, hs, ?_, ?_, ?_, ?_, ?_, ?_, ⟨_, hv⟩⟩
  · intro hn hf
    rw [hv]
    rcases hf with rfl | rfl <;> simp [Slot.get, hn, CType.sentinel, kNaN]
  · intro hn hi
    rw [hv]
    rcases hi with rfl | rfl | rfl | rfl | rfl | rfl | rfl | rfl <;>
      simp [Slot.get, hn, CType.sentinel, CType.init]
  · intro hn hb
    rw [hv, hb]
    simp [Slot.get, hn, CType.sentinel, CType.init]
  · intro hn hb
    rw [hv, hb]
    simp [Slot.get, hn, CType.sentinel, CType.init]
  · intro hn hd hf
    rw [hv]
    cases T <;> simp [Table.AssertRes] at hT <;>
      simp_all [Slot.get, CType.sentinel, CType.init]
  · intro hn
    rw [hv]
    simp [Slot.get, hn]

/-- C4 on examples: the `FLOAT` column `[1.5, null, 5.0]` of the specification
gives NaN for row 1 and the stored values for rows 0 and 2; the null of an
`INT32` column reads as the integer 0, the null of a `BOOL` column as `false`,
the null of a `STRING` column as the empty string. -/
theorem C4_null_policy_witness :
    tableF.Value .float 1 0 = .ok .nan ∧
    tableF.Value .float 0 0 = .ok (.real 3 (-1)) ∧
    tableF.Value .float 2 0 = .ok (.real 5 0) ∧
    tableN.Value .int32_t 2 0 = .ok (.int 0) ∧
    tableNullB.Value .bool 1 0 = .ok (.bool false) ∧
    tableNullS.Value .string 1 0 = .ok (.str "") := by
  refine ⟨?_, ?_, ?_, ?_, ?_, ?_⟩
  · obtain ⟨s, hs, hnan, _⟩ := C4_null_policy .float tableF 0
      ⟨some .FLOAT, [⟨[⟨false, .real 3 (-1)⟩, ⟨true, .real 7 0⟩, ⟨false, .real 5 0⟩]⟩]⟩
      .FLOAT 1 (by decide) rfl (by decide) (by decide) (by decide) (by decide)
    have h : s = ⟨true, .real 7 0⟩ := by
      simpa [ArrowColumn.cells, cellsOf] using hs.symm
    subst h
    exact (hnan rfl (Or.inr rfl)).2
  · obtain ⟨s, hs, _, _, _, _, _, hval, _⟩ := C4_null_policy .float tableF 0
      ⟨some .FLOAT, [⟨[⟨false, .real 3 (-1)⟩, ⟨true, .real 7 0⟩, ⟨false, .real 5 0⟩]⟩]⟩
      .FLOAT 0 (by decide) rfl (by decide) (by decide) (by decide) (by decide)
    have h : s = ⟨false, .real 3 (-1)⟩ := by
      simpa [ArrowColumn.cells, cellsOf] using hs.symm
    subst h
    exact hval rfl
  · obtain ⟨s, hs, _, _, _, _, _, hval, _⟩ := C4_null_policy .float tableF 0
      ⟨some .FLOAT, [⟨[⟨false, .real 3 (-1)⟩, ⟨true, .real 7 0⟩, ⟨false, .real 5 0⟩]⟩]⟩
      .FLOAT 2 (by decide) rfl (by decide) (by decide) (by decide) (by decide)
    have h : s = ⟨false, .real 5 0⟩ := by
      simpa [ArrowColumn.cells, cellsOf] using hs.symm
    subst h
    exact hval rfl
  · obtain ⟨s, hs, _, hint, _⟩ := C4_null_policy .int32_t tableN 0
      ⟨some .INT32, [⟨[⟨false, .int 10⟩, ⟨true, .int 99⟩]⟩,
                     ⟨[⟨true, .int 98⟩, ⟨false, .int 40⟩]⟩]⟩
      .INT32 2 (by decide) rfl (by decide) (by decide) (by decide) (by decide)
    have h : s = ⟨true, .int 98⟩ := by
      simpa [ArrowColumn.cells, cellsOf] using hs.symm
    subst h
    exact hint rfl (by decide)
  · obtain ⟨s, hs, _, _, hbool, _⟩ := C4_null_policy .bool tableNullB 0
      ⟨some .BOOL, [⟨[⟨false, .bool true⟩, ⟨true, .bool true⟩]⟩]⟩
      .BOOL 1 (by decide) rfl (by decide) (by decide) (by decide) (by decide)
    have h : s = ⟨true, .bool true⟩ := by
      simpa [ArrowColumn.cells, cellsOf] using hs.symm
    subst h
    exact hbool rfl rfl
  · obtain ⟨s, hs, _, _, _, hstr, _⟩ := C4_null_policy .string tableNullS 0
      ⟨some .STRING, [⟨[⟨false, .str "a"⟩, ⟨true, .str "zz"⟩]⟩]⟩
      .STRING 1 (by decide) rfl (by decide) (by decide) (by decide) (by decide)
    have h : s = ⟨true, .str "zz"⟩ := by
      simpa [ArrowColumn.cells, cellsOf] using hs.symm
    subst h
    exact hstr rfl rfl

/-- C5: for every row index `r >= num_rows` (every `r >= 0` on a table without
rows among them) and every column of the table, `Value<T>(r, icol)` fails with
the row-out-of-range error, and `Visit<T>(r, icol, offset, visitor)` fails
with it for every offset without a single invocation of the visitor. -/
theorem C5_row_out_of_range {σ : Type} (T : CType) (t : Table) (icol : Int)
    (col : ArrowColumn) (r off : Int) (visitor : σ → Scalar → Int → Bool × σ) (s : σ)
    (hcol : t.column icol = some col) (hr : t.num_rows ≤ r) :
    t.Value T r icol = .fatal .rowIndexOutOfRange ∧
    Err.kind .rowIndexOutOfRange = .IndexOutOfRange ∧
    (t.Visit T r icol off visitor s).result = some (.fatal .rowIndexOutOfRange) ∧
    (t.Visit T r icol off visitor s).calls = [] ∧
    (t.Visit T r icol off visitor s).state = s := by
  have hv : t.Visit T r icol off visitor s = ⟨[], s, some (.fatal .rowIndexOutOfRange)⟩ := by
    unfold Table.Visit
    rw [hcol]
    simp only
    rw [if_pos hr]
  refine ⟨?_, rfl, by rw [hv], by rw [hv], by rw [hv]⟩
  unfold Table.Value
  rw [hcol]
  simp only
  rw [if_pos hr]

/-- C5 on a table without rows, whose column has no chunk at all: row 0 is out
of range for `Value` and for `Visit`. -/
theorem C5_row_out_of_range_witness :
    table0.Value .double 0 0 = .fatal .rowIndexOutOfRange ∧
    (table0.Visit .double 0 0 (-3) countVisitor 0).result =
      some (.fatal .rowIndexOutOfRange) ∧
    (table0.Visit .double 0 0 (-3) countVisitor 0).calls = [] :=
  have h := C5_row_out_of_range .double table0 0 ⟨some .DOUBLE, []⟩ 0 (-3) countVisitor 0
    (by decide) (by decide)
  ⟨h.1, h.2.2.1, h.2.2.2.1⟩

/-! ## `Assert`, `Column` and `Data` -/

theorem AssertRes_iff (T : CType) (a : ArrowType) :
    Table.AssertRes T a = true ↔ T.arrow = some a := by
  cases T <;> simp only [Table.AssertRes, CType.arrow, beq_iff_eq, Option.some.injEq] <;>
    first
    | exact eq_comm
    | simp

theorem column_of_range (t : Table) (icol : Int) (h0 : 0 ≤ icol)
    (hlt : icol < t.num_columns) : ∃ col, t.column icol = some col := by
  unfold Table.num_columns at hlt
  have h : icol.toNat < t.columns.length := by omega
  refine ⟨t.columns[icol.toNat], ?_⟩
  unfold Table.column
  rw [if_neg (by omega), List.getElem?_eq_getElem h]

/-- When `Assert<T>(icol)` returns, the column exists and has the kind of `T`. -/
theorem Assert_ok (T : CType) (t : Table) (icol : Int) (h : t.Assert T icol = .ok ()) :
    icol < t.num_columns ∧
      ∃ col a, t.column icol = some col ∧ col.type = some a ∧ Table.AssertRes T a = true := by
  unfold Table.Assert at h
  by_cases hge : icol ≥ t.num_columns
  · rw [if_pos hge] at h
    cases h
  · rw [if_neg hge] at h
    refine ⟨by omega, ?_⟩
    cases hc : t.column icol with
    | none => rw [hc] at h; cases h
    | some col =>
      rw [hc] at h
      simp only at h
      cases hty : col.type with
      | none => rw [hty] at h; cases h
      | some a =>
        rw [hty] at h
        simp only at h
        cases hres : Table.AssertRes T a with
        | false => rw [hres] at h; simp at h
        | true => exact ⟨col, a, rfl, hty, hres⟩

/-- The outcome of `Assert<T>(icol)` on an existing column below
`num_columns()`. -/
theorem Assert_of_column (T : CType) (t : Table) (icol : Int) (col : ArrowColumn)
    (hlt : icol < t.num_columns) (hcol : t.column icol = some col) :
    t.Assert T icol =
      match col.type with
      | none => .fatal .emptyDataType
      | some a => if Table.AssertRes T a = true then .ok () else .fatal .invalidDataType := by
  unfold Table.Assert
  rw [if_neg (by omega), hcol]
  simp only
  cases col.type with
  | none => rfl
  | some a => cases h : Table.AssertRes T a <;> simp [h]

/-- C7, amended: for every `icol >= 0`, `Assert<T>(icol)` returns normally if
and only if `icol < num_columns()`, the column has a declared type and that
type is the one that corresponds to `T`; in every other case with `icol >= 0`,
any `T` outside the twelve included, it fails; the range check comes first, so
an index `>= num_columns()` is reported as out of range, and a failure below
`num_columns()` is a type mismatch. -/
theorem C7_assert_iff (T : CType) (t : Table) (icol : Int) (h0 : 0 ≤ icol) :
    (t.Assert T icol = .ok () ↔
      icol < t.num_columns ∧
        ∃ col a, t.column icol = some col ∧ col.type = some a ∧ T.arrow = some a) ∧
    (t.Assert T icol ≠ .ok () → ∃ e, t.Assert T icol = .fatal e) ∧
    (t.num_columns ≤ icol → t.Assert T icol = .fatal .columnIndexOutOfRange) ∧
    (icol < t.num_columns → t.Assert T icol ≠ .ok () →
      ∃ e, t.Assert T icol = .fatal e ∧ e.kind = .TypeMismatch) := by
  have hge : t.num_columns ≤ icol → t.Assert T icol = .fatal .columnIndexOutOfRange := by
    intro h
    unfold Table.Assert
    rw [if_pos h]
  have hin : icol < t.num_columns → t.Assert T icol ≠ .ok () →
      ∃ e, t.Assert T icol = .fatal e ∧ e.kind = .TypeMismatch := by
    intro hlt hne
    obtain ⟨col, hcol⟩ := column_of_range t icol h0 hlt
    rw [Assert_of_column T t icol col hlt hcol] at hne ⊢
    cases hty : col.type with
    | none => exact ⟨_, rfl, rfl⟩
    | some a =>
      rw [hty] at hne
      simp only at hne ⊢
      cases hres : Table.AssertRes T a with
      | false => exact ⟨.invalidDataType, by simp, rfl⟩
      | true => rw [hres] at hne; simp at hne
  refine ⟨⟨?_, ?_⟩, ?_, hge, hin⟩
  · intro h
    obtain ⟨hlt, col, a, hcol, hty, hres⟩ := Assert_ok T t icol h
    exact ⟨hlt, col, a, hcol, hty, (AssertRes_iff T a).1 hres⟩
  · rintro ⟨hlt, col, a, hcol, hty, harrow⟩
    rw [Assert_of_column T t icol col hlt hcol, hty]
    simp [(AssertRes_iff T a).2 harrow]
  · intro hne
    by_cases hlt : icol < t.num_columns
    · obtain ⟨e, he, _⟩ := hin hlt hne
      exact ⟨e, he⟩
    · exact ⟨_, hge (by omega)⟩

/-- C7, amended, on the example table: column 0 is an `INT32` column, so
`Assert<int32_t>(0)` returns, `Assert<double>(0)` fails on the type, and
`Assert<int32_t>(1)` fails on the range. -/
theorem C7_assert_iff_witness :
    table5.Assert .int32_t 0 = .ok () ∧
    table5.Assert .int32_t 1 = .fatal .columnIndexOutOfRange ∧
    (∃ e, table5.Assert .double 0 = .fatal e ∧ e.kind = .TypeMismatch) :=
  have h := C7_assert_iff .int32_t table5 0 (by decide)
  ⟨h.1.2 ⟨by decide, _, _, rfl, rfl, rfl⟩,
    (C7_assert_iff .int32_t table5 1 (by decide)).2.2.1 (by decide),
    (C7_assert_iff .double table5 0 (by decide)).2.2.2 (by decide) (by decide)⟩

/-- C7 as stated fails on a negative index: `Assert<int32_t>(-1)` passes the
test `icol >= num_columns()` and goes on to `column(-1)`, outside the vector of
columns; no error is raised. -/
theorem C7_counterexample :
    table5.Assert .int32_t (-1) = .undefined ∧
    ¬ ∃ e, table5.Assert .int32_t (-1) = .fatal e := by
  have h : table5.Assert .int32_t (-1) = .undefined := by decide
  refine ⟨h, ?_⟩
  rintro ⟨e, he⟩
  rw [h] at he
  cases he

/-- After `Assert<T>`, the chain of `Column` returns a pointer. -/
theorem ColumnView_ok (T : CType) (col : ArrowColumn) (a : ArrowType) (chunk : Chunk)
    (hty : col.type = some a) (hT : Table.AssertRes T a = true) :
    ∃ p, Table.ColumnView T col chunk = .ok p := by
  cases T <;> simp [Table.AssertRes] at hT <;> subst hT <;>
    simp [Table.ColumnView, Chunk.raw_values, hty]

/-- C6, amended: `Column<T>` and `Data<T>` reject a bad column or type. For
every `icol >= num_columns()`, `Column<T>(icol)` fails with IndexOutOfRange;
for every column below `num_columns()` whose declared type is missing or is
not the one of `T`, `Column<T>(icol)` fails with TypeMismatch, and so does
`Data<T>()` on a table with `num_columns() == 1` for column 0. -/
theorem C6_column_data_reject (T : CType) (t : Table) (icol : Int) (col : ArrowColumn) :
    (t.num_columns ≤ icol →
      t.Column T icol = .fatal .columnIndexOutOfRange ∧
        Err.kind .columnIndexOutOfRange = .IndexOutOfRange) ∧
    (icol < t.num_columns → t.column icol = some col →
      (¬ ∃ a, col.type = some a ∧ T.arrow = some a) →
      ∃ e, t.Column T icol = .fatal e ∧ e.kind = .TypeMismatch) ∧
    (t.num_columns = 1 → t.column 0 = some col →
      (¬ ∃ a, col.type = some a ∧ T.arrow = some a) →
      ∃ e, t.Data T = .fatal e ∧ e.kind = .TypeMismatch) := by
  have hmis : ∀ (i : Int), i < t.num_columns → t.column i = some col →
      (¬ ∃ a, col.type = some a ∧ T.arrow = some a) →
      ∃ e, t.Column T i = .fatal e ∧ e.kind = .TypeMismatch := by
    intro i hlt hcol hdiff
    unfold Table.Column
    rw [Assert_of_column T t i col hlt hcol]
    cases hty : col.type with
    | none => exact ⟨.emptyDataType, rfl, rfl⟩
    | some a =>
      have hres : Table.AssertRes T a = false := by
        cases h : Table.AssertRes T a with
        | false => rfl
        | true => exact absurd ⟨a, hty, (AssertRes_iff T a).1 h⟩ hdiff
      exact ⟨.invalidDataType, by simp [hres], rfl⟩
  refine ⟨?_, hmis icol, ?_⟩
  · intro hge
    refine ⟨?_, rfl⟩
    unfold Table.Column Table.Assert
    rw [if_pos hge]
  · intro h1 hcol hdiff
    unfold Table.Data
    rw [if_neg (by simp [h1])]
    exact hmis 0 (by omega) hcol hdiff

/-- C6, amended, on the example table with its `INT32` column 0:
`Column<int32_t>(1)` is out of range, `Column<double>(0)` and `Data<double>()`
are type mismatches. -/
theorem C6_column_data_reject_witness :
    table5.Column .int32_t 1 = .fatal .columnIndexOutOfRange ∧
    (∃ e, table5.Column .double 0 = .fatal e ∧ e.kind = .TypeMismatch) ∧
    (∃ e, table5.Data .double = .fatal e ∧ e.kind = .TypeMismatch) :=
  ⟨((C6_column_data_reject .int32_t table5 1 ⟨none, []⟩).1 (by decide)).1,
    (C6_column_data_reject .double table5 0
      ⟨some .INT32, [intChunk [10, 20], intChunk [30, 40, 50]]⟩).2.1
      (by decide) (by decide) (by decide),
    (C6_column_data_reject .double table5 0
      ⟨some .INT32, [intChunk [10, 20], intChunk [30, 40, 50]]⟩).2.2
      (by decide) (by decide) (by decide)⟩

/-- C6 as stated fails for `Value` and `Visit`, which check neither the column
index nor the type. On the example table `num_columns()` is 1, yet
`Value<int64_t>(0, 1)` returns the first value of the column at position 1 and
`Visit<int64_t>(0, 1, 0, visitor)` invokes the visitor on it; `Value<T>(0, 0)`
for a `T` outside the twelve returns `T{}` from the `INT32` column, and
`Value<double>(0, 0)` casts the chunk to a class it does not have; no error is
raised. -/
theorem C6_counterexample :
    table5.num_columns ≤ 1 ∧
    table5.Value .int64_t 0 1 = .ok (.int 0) ∧
    (table5.Visit .int64_t 0 1 0 countVisitor 0).calls = [(.int 0, 0)] ∧
    (table5.Visit .int64_t 0 1 0 countVisitor 0).result = some (.ok ()) ∧
    table5.Value .other 0 0 = .ok .zeroInit ∧
    table5.Value .double 0 0 = .undefined ∧
    (table5.Visit .double 0 0 0 countVisitor 0).result = some .undefined := by
  decide

/-- C8, amended: for every column that passes `Assert<T>` and has at least one
chunk, `Column<T>(icol)` returns if and only if the column has exactly one
chunk and no null; with two or more chunks, or with a null, it fails with
UnsupportedRawAccess. -/
theorem C8_raw_column_iff (T : CType) (t : Table) (icol : Int) (col : ArrowColumn)
    (hassert : t.Assert T icol = .ok ()) (hcol : t.column icol = some col)
    (hne : 1 ≤ col.num_chunks) :
    ((∃ p, t.Column T icol = .ok p) ↔ (col.num_chunks = 1 ∧ col.null_count = 0)) ∧
    (¬ (col.num_chunks = 1 ∧ col.null_count = 0) →
      t.Column T icol = .fatal .notRawColumn) ∧
    Err.kind .notRawColumn = .UnsupportedRawAccess := by
  obtain ⟨_, col2, a, hcol2, hty, hres⟩ := Assert_ok T t icol hassert
  rw [hcol] at hcol2
  cases hcol2
  have hC : t.Column T icol =
      if col.num_chunks > 1 ∨ col.null_count > 0 then .fatal .notRawColumn
      else
        match col.chunks with
        | [] => .undefined
        | chunk :: _ => Table.ColumnView T col chunk := by
    unfold Table.Column
    rw [hassert]
    simp only
    rw [hcol]
  by_cases hbad : col.num_chunks > 1 ∨ col.null_count > 0
  · rw [hC, if_pos hbad]
    refine ⟨⟨?_, ?_⟩, fun _ => rfl, rfl⟩
    · rintro ⟨p, hp⟩
      cases hp
    · rintro ⟨h1, h2⟩
      omega
  · have hgood : col.num_chunks = 1 ∧ col.null_count = 0 := by omega
    rw [hC, if_neg hbad]
    refine ⟨⟨fun _ => hgood, fun _ => ?_⟩, fun h => absurd hgood h, rfl⟩
    cases hch : col.chunks with
    | nil =>
      unfold ArrowColumn.num_chunks at hne
      rw [hch] at hne
      simp at hne
    | cons chunk rest => exact ColumnView_ok T col a chunk hty hres

/-- C8, amended, on example tables: a single chunk without nulls is returned,
two chunks are refused, a single chunk with a null is refused. -/
theorem C8_raw_column_iff_witness :
    (∃ p, table2.Column .int32_t 0 = .ok p) ∧
    table5.Column .int32_t 0 = .fatal .notRawColumn ∧
    tableF.Column .float 0 = .fatal .notRawColumn :=
  ⟨(C8_raw_column_iff .int32_t table2 0 ⟨some .INT32, [intChunk [1, 2]]⟩
      (by decide) (by decide) (by decide)).1.2 (by decide),
    (C8_raw_column_iff .int32_t table5 0
      ⟨some .INT32, [intChunk [10, 20], intChunk [30, 40, 50]]⟩
      (by decide) (by decide) (by decide)).2.1 (by decide),
    (C8_raw_column_iff .float tableF 0
      ⟨some .FLOAT, [⟨[⟨false, .real 3 (-1)⟩, ⟨true, .real 7 0⟩, ⟨false, .real 5 0⟩]⟩]⟩
      (by decide) (by decide) (by decide)).2.1 (by decide)⟩

/-- C8 as stated fails on a column without chunks: the `DOUBLE` column of the
empty table passes `Assert<double>`, has neither more than one chunk nor a
null, and `Column<double>(0)` goes on to `chunk(0)`, outside the chunk vector;
no error is raised. -/
theorem C8_counterexample :
    table0.Assert .double 0 = .ok () ∧
    table0.column 0 = some ⟨some .DOUBLE, []⟩ ∧
    table0.Column .double 0 = .undefined ∧
    table0.Column .double 0 ≠ .fatal .notRawColumn := by
  decide

/-- C9: `Data<T>()` fails with ColumnCardinalityMismatch whenever
`num_columns() != 1` (more than one column, no column), whatever the columns
are, and when `num_columns() == 1` its outcome is that of `Column<T>(0)`. -/
theorem C9_data_one_column (T : CType) (t : Table) :
    (t.num_columns ≠ 1 →
      t.Data T = .fatal .notOneColumn ∧
        Err.kind .notOneColumn = .ColumnCardinalityMismatch) ∧
    (t.num_columns = 1 → t.Data T = t.Column T 0) := by
  refine ⟨fun h => ⟨?_, rfl⟩, fun h => ?_⟩
  · unfold Table.Data
    rw [if_pos h]
  · unfold Table.Data
    rw [if_neg (by simp [h])]

/-- C9 on example tables: two columns and no column are refused; one column is
handed to `Column<T>(0)`. -/
theorem C9_data_one_column_witness :
    table2.Data .int32_t = .fatal .notOneColumn ∧
    table1.Data .int64_t = .fatal .notOneColumn ∧
    table5.Data .int32_t = table5.Column .int32_t 0 :=
  ⟨((C9_data_one_column .int32_t table2).1 (by decide)).1,
    ((C9_data_one_column .int64_t table1).1 (by decide)).1,
    (C9_data_one_column .int32_t table5).2 (by decide)⟩

/-! ## `Visit` against `Value` -/

/-- The invocations a fed visitor receives are the first ones of the sequence. -/
theorem feed_calls_take {σ : Type} (visitor : σ → Scalar → Int → Bool × σ)
    (fin : Option (Res Unit)) :
    ∀ (w : List (Scalar × Int)) (s : σ), ∃ j, (feed visitor fin w s).calls = w.take j := by
  intro w
  induction w with
  | nil => intro s; exact ⟨0, rfl⟩
  | cons c cs ih =>
    intro s
    unfold feed
    by_cases h : (visitor s c.1 c.2).1 = true
    · rw [if_pos h]
      exact ⟨1, by simp⟩
    · rw [if_neg h]
      obtain ⟨j, hj⟩ := ih (visitor s c.1 c.2).2
      exact ⟨j + 1, by simp [VisitRun.cons, hj]⟩

/-- On a valid row `Value` returns the value of that row of the column. -/
theorem Value_eq_at (T : CType) (t : Table) (icol : Int) (col : ArrowColumn) (a : ArrowType)
    (r : Int) (hcol : t.column icol = some col) (hty : col.type = some a)
    (hT : Table.AssertRes T a = true) (hrows : col.length = t.num_rows)
    (h0 : 0 ≤ r) (hr : r < t.num_rows) :
    t.Value T r icol = .ok (col.at T r) := by
  obtain ⟨s, hs, hv⟩ := Value_eq T t icol col a r hcol hty hT hrows h0 hr
  rw [hv]
  unfold ArrowColumn.at
  rw [hs]

/-- Every invocation of the window of the specification is that of a row
between the first and the last row of the window. -/
theorem mem_windowCalls {T : CType} {col : ArrowColumn} {n center off : Int}
    {c : Scalar × Int} (h : c ∈ windowCalls T col n center off) :
    ∃ row, windowBegin center off ≤ row ∧ row ≤ windowLast n center off ∧
      c = (col.at T row, row - center) := by
  unfold windowCalls at h
  rw [List.mem_map] at h
  obtain ⟨j, hj, rfl⟩ := h
  rw [List.mem_range] at hj
  exact ⟨windowBegin center off + j, by omega, by omega, rfl⟩

/-- C11: `Visit` agrees with `Value`. For a valid `centerRow`, every 32-bit
`windowOffset` and every supported `T`, each pair `(v, p)` that
`Visit<T>(centerRow, icol, windowOffset, visitor)` passes to the visitor is the
value of row `centerRow + p` of the column, null sentinel included, and
`v = Value<T>(centerRow + p, icol)`, whatever chunk the row lies in. -/
theorem C11_visit_agrees_with_value {σ : Type} (T : CType) (t : Table) (icol : Int)
    (col : ArrowColumn) (a : ArrowType) (centerRow windowOffset : Int)
    (visitor : σ → Scalar → Int → Bool × σ) (s : σ)
    (hcol : t.column icol = some col) (hty : col.type = some a)
    (hT : Table.AssertRes T a = true) (hrows : col.length = t.num_rows)
    (h0 : 0 ≤ centerRow) (hc : centerRow < t.num_rows)
    (ho1 : -2147483648 ≤ windowOffset) (ho2 : windowOffset < 2147483648) :
    ∀ c ∈ (t.Visit T centerRow icol windowOffset visitor s).calls,
      t.Value T (centerRow + c.2) icol = .ok c.1 ∧
      c.1 = col.at T (centerRow + c.2) ∧
      0 ≤ centerRow + c.2 ∧ centerRow + c.2 < t.num_rows := by
  intro c hmem
  rw [Visit_eq_feed T t icol col a centerRow windowOffset visitor s hcol hty hT hrows h0 hc
    ho1 ho2] at hmem
  obtain ⟨j, hj⟩ := feed_calls_take visitor
    (some (if windowOffset < 0 ∨ centerRow + windowOffset + 1 < 2147483648 then .ok ()
      else .undefined))
    (windowCalls T col t.num_rows centerRow windowOffset) s
  rw [hj] at hmem
  obtain ⟨row, hlo, hhi, rfl⟩ := mem_windowCalls (List.mem_of_mem_take hmem)
  have hb : 0 ≤ windowBegin centerRow windowOffset := by
    unfold windowBegin
    by_cases hneg : windowOffset < 0
    · rw [if_pos hneg]; omega
    · rw [if_neg hneg]; omega
  have hl : windowLast t.num_rows centerRow windowOffset < t.num_rows := by
    unfold windowLast
    by_cases hneg : windowOffset < 0
    · rw [if_pos hneg]; omega
    · rw [if_neg hneg]; omega
  simp only
  rw [show centerRow + (row - centerRow) = row by omega]
  exact ⟨Value_eq_at T t icol col a row hcol hty hT hrows (by omega) (by omega), rfl,
    by omega, by omega⟩

/-- C11 on the column `[10, null]`, `[null, 40]`: `Visit(1, col, 2)` passes
`(0, 0)`, `(0, 1)`, `(40, 2)`; the last pair is read from the second chunk and
is `Value(3)`, the second is a null of the second chunk and is `Value(2)`. -/
theorem C11_visit_agrees_with_value_witness :
    (tableN.Visit .int32_t 1 0 2 countVisitor 0).calls =
      [(.int 0, 0), (.int 0, 1), (.int 40, 2)] ∧
    tableN.Value .int32_t (1 + 2) 0 = .ok (.int 40) ∧
    tableN.Value .int32_t (1 + 1) 0 = .ok (.int 0) :=
  ⟨by decide,
    (C11_visit_agrees_with_value .int32_t tableN 0
      ⟨some .INT32, [⟨[⟨false, .int 10⟩, ⟨true, .int 99⟩]⟩,
                     ⟨[⟨true, .int 98⟩, ⟨false, .int 40⟩]⟩]⟩ .INT32 1 2 countVisitor 0
      (by decide) rfl (by decide) (by decide) (by decide) (by decide) (by decide) (by decide)
      (.int 40, 2) (by decide)).1,
    (C11_visit_agrees_with_value .int32_t tableN 0
      ⟨some .INT32, [⟨[⟨false, .int 10⟩, ⟨true, .int 99⟩]⟩,
                     ⟨[⟨true, .int 98⟩, ⟨false, .int 40⟩]⟩]⟩ .INT32 1 2 countVisitor 0
      (by decide) rfl (by decide) (by decide) (by decide) (by decide) (by decide) (by decide)
      (.int 0, 1) (by decide)).1⟩

/-! ## Which physical column an index addresses -/

/-- C12, amended: `num_columns()` is the physical column count minus one, and
for every column index `c` in `[0, num_columns())` the accessors `Assert`,
`Column`, `Value` and `Visit` address the physical column at position `c`
itself: it exists, it is not the last physical column, and the outcome of each
accessor is the same on every table with the same row count, the same number
of columns and the same column at position `c`. So the last physical column
(position `num_columns()`) is never type-checked or read through a valid
logical index. -/
theorem C12_index_addresses_position {σ : Type} (T : CType) (t t2 : Table) (c : Int)
    (h0 : 0 ≤ c) (hc : c < t.num_columns)
    (hrows : t2.rows = t.rows) (hlen : t2.columns.length = t.columns.length)
    (hsame : t2.columns[c.toNat]? = t.columns[c.toNat]?) :
    t.num_columns = (t.columns.length : Int) - 1 ∧
    (∃ col, t.columns[c.toNat]? = some col ∧ t.column c = some col) ∧
    c.toNat + 1 < t.columns.length ∧
    t2.Assert T c = t.Assert T c ∧
    t2.Column T c = t.Column T c ∧
    (∀ r, t2.Value T r c = t.Value T r c) ∧
    (∀ (r off : Int) (visitor : σ → Scalar → Int → Bool × σ) (s : σ),
      t2.Visit T r c off visitor s = t.Visit T r c off visitor s) := by
  have hcol : t2.column c = t.column c := by
    unfold Table.column
    rw [if_neg (by omega), if_neg (by omega), hsame]
  have hnc : t2.num_columns = t.num_columns := by
    unfold Table.num_columns
    rw [hlen]
  have hnr : t2.num_rows = t.num_rows := by
    unfold Table.num_rows
    rw [hrows]
  have hA : t2.Assert T c = t.Assert T c := by
    unfold Table.Assert
    rw [hcol, hnc]
  obtain ⟨col, hcolumn⟩ := column_of_range t c h0 hc
  refine ⟨rfl, ⟨col, ?_, hcolumn⟩, ?_, hA, ?_, ?_, ?_⟩
  · unfold Table.column at hcolumn
    rw [if_neg (by omega)] at hcolumn
    exact hcolumn
  · unfold Table.num_columns at hc
    omega
  · unfold Table.Column
    rw [hA, hcol]
  · intro r
    unfold Table.Value
    rw [hcol, hnr]
  · intro r off visitor s
    unfold Table.Visit
    rw [hcol, hnr]

/-- C12, amended, on the example table: replacing the last physical column
leaves `Assert<int32_t>(0)` and `Value<int32_t>(2, 0)` as they are. -/
theorem C12_index_addresses_position_witness :
    (⟨"t", [⟨some .INT32, [intChunk [10, 20], intChunk [30, 40, 50]]⟩,
            ⟨some .STRING, []⟩], 5⟩ : Table).Assert .int32_t 0 = table5.Assert .int32_t 0 ∧
    (⟨"t", [⟨some .INT32, [intChunk [10, 20], intChunk [30, 40, 50]]⟩,
            ⟨some .STRING, []⟩], 5⟩ : Table).Value .int32_t 2 0 =
      table5.Value .int32_t 2 0 :=
  have h := @C12_index_addresses_position Nat .int32_t table5
    ⟨"t", [⟨some .INT32, [intChunk [10, 20], intChunk [30, 40, 50]]⟩,
           ⟨some .STRING, []⟩], 5⟩ 0 (by decide) (by decide) rfl rfl rfl
  ⟨h.2.2.2.1, h.2.2.2.2.2.1 2⟩

/-- C12 as stated fails: logical index 0 addresses the leading physical column,
not the column that follows it. On the example table the leading physical
column is the `INT32` column `[10, 20, 30, 40, 50]` and the column after it is
the `INT64` column `[0, 1, 2, 3, 4]`; `Assert<int32_t>(0)` returns and
`Assert<int64_t>(0)` fails on the type, `Value<int32_t>(0, 0)` is 10, the first
value of the leading column. -/
theorem C12_counterexample :
    (0 : Int) < table5.num_columns ∧
    table5.columns[0]? = some ⟨some .INT32, [intChunk [10, 20], intChunk [30, 40, 50]]⟩ ∧
    table5.columns[1]? = some ⟨some .INT64, [intChunk [0, 1, 2, 3, 4]]⟩ ∧
    table5.Assert .int32_t 0 = .ok () ∧
    table5.Assert .int64_t 0 = .fatal .invalidDataType ∧
    table5.Value .int32_t 0 0 = .ok (.int 10) := by
  decide

/-! ## `DataRegistry` -/

theorem lookup_eq_none_of_not_mem (name : String) :
    ∀ (l : List (String × Table)), l.lookup name = none ↔ name ∉ l.map Prod.fst := by
  intro l
  induction l with
  | nil => simp
  | cons e es ih =>
    obtain ⟨k, v⟩ := e
    by_cases h : name = k
    · subst h
      simp [List.lookup]
    · have hb : (name == k) = false := by simpa using h
      simp [List.lookup, hb, ih, h]

/-- C13: registry retain semantics. For every name `x` with `Has(x)` false that
the loader resolves, `GetData(x, retain=false)` returns the materialised table
and leaves the registry, and so `Has(x)`, as it was; `GetData(x, retain=true)`
returns it and makes `Has(x)` true, and a second `GetData(x, retain=true)`
returns the same table from the cache whatever the loader would produce,
leaving the cache as it is; a cache with at most one entry per name keeps that
property, and has exactly one entry for `x`. -/
theorem C13_registry_retain (loader : String → Option Table) (reg : DataRegistry)
    (x : String) (tbl : Table)
    (hhas : reg.Has x = false) (hload : loader x = some tbl)
    (huniq : reg.names.Nodup) :
    reg.GetData loader x false = some (tbl, reg) ∧
    (∃ reg1, reg.GetData loader x true = some (tbl, reg1) ∧
      reg1.Has x = true ∧
      (∀ loader2, reg1.GetData loader2 x true = some (tbl, reg1)) ∧
      reg1.names.Nodup ∧
      reg1.names.count x = 1 ∧
      (∀ y, y ≠ x → reg1.Has y = reg.Has y)) := by
  have hnone : reg.array_map_.lookup x = none := by
    unfold DataRegistry.Has at hhas
    cases h : reg.array_map_.lookup x with
    | none => rfl
    | some v => rw [h] at hhas; simp at hhas
  have hnot : x ∉ reg.names := (lookup_eq_none_of_not_mem x reg.array_map_).1 hnone
  refine ⟨?_, ⟨(x, tbl) :: reg.array_map_⟩, ?_, ?_, ?_, ?_, ?_, ?_⟩
  · unfold DataRegistry.GetData
    rw [hnone, hload]
    simp
  · unfold DataRegistry.GetData
    rw [hnone, hload]
    simp
  · simp [DataRegistry.Has, List.lookup]
  · intro loader2
    simp [DataRegistry.GetData, List.lookup]
  · unfold DataRegistry.names at hnot huniq ⊢
    simp only [List.map_cons, List.nodup_cons]
    exact ⟨hnot, huniq⟩
  · unfold DataRegistry.names at hnot ⊢
    simp only [List.map_cons]
    rw [List.count_cons_self, List.count_eq_zero_of_not_mem hnot]
  · intro y hy
    have hb : (y == x) = false := by simpa using hy
    simp [DataRegistry.Has, List.lookup, hb]

/-- C13 on an empty registry with a loader that knows `x`. -/
theorem C13_registry_retain_witness :
    (⟨[]⟩ : DataRegistry).GetData loaderX "x" false = some (table5, ⟨[]⟩) ∧
    (∃ reg1, (⟨[]⟩ : DataRegistry).GetData loaderX "x" true = some (table5, reg1) ∧
      reg1.Has "x" = true ∧
      reg1.GetData loaderNone "x" true = some (table5, reg1)) :=
  have h := C13_registry_retain loaderX ⟨[]⟩ "x" table5 (by decide) (by decide) (by decide)
  ⟨h.1, h.2.elim fun reg1 hr => ⟨reg1, hr.1, hr.2.1, hr.2.2.1 loaderNone⟩⟩

/-! ## The bounds of the window -/

/-- `Visit` starts its loop from `VisitBegin` and `VisitEnd`. -/
theorem Visit_bounds {σ : Type} (T : CType) (t : Table) (irow icol row_offset : Int)
    (visitor : σ → Scalar → Int → Bool × σ) (s : σ) (col : ArrowColumn) (chunk : Chunk)
    (rest : List Chunk) (hcol : t.column icol = some col) (hr : irow < t.num_rows)
    (hch : col.chunks = chunk :: rest) :
    t.Visit T irow icol row_offset visitor s =
      Table.VisitLoop T col visitor (col.cells.length + 1)
        ⟨rest, 0, chunk, Table.VisitBegin irow row_offset,
          Table.VisitEnd irow row_offset t.num_rows, irow⟩ s := by
  unfold Table.Visit Table.VisitBegin Table.VisitEnd
  rw [hcol]
  simp only
  rw [if_neg (by omega), hch]

/-- Without overflow the bounds of `Visit` are those of the window of the
specification. -/
theorem VisitBounds_eq (irow row_offset num_rows : Int) (h0 : 0 ≤ irow)
    (hc : irow < num_rows) (hn : num_rows < 2147483648)
    (ho1 : -2147483648 ≤ row_offset)
    (hnov : row_offset < 0 ∨ irow + row_offset + 1 < 2147483648) :
    Table.VisitBegin irow row_offset = windowBegin irow row_offset ∧
    Table.VisitEnd irow row_offset num_rows = windowLast num_rows irow row_offset + 1 := by
  unfold Table.VisitBegin Table.VisitEnd windowBegin windowLast
  by_cases hneg : row_offset < 0
  · rw [if_pos hneg, if_pos hneg, if_pos hneg, if_pos hneg,
      wrap32_of_range (x := irow + row_offset) (by omega) (by omega),
      wrap32_of_range (x := irow + 1) (by omega) (by omega)]
    exact ⟨rfl, rfl⟩
  · have hlt : irow + row_offset + 1 < 2147483648 := by omega
    rw [if_neg hneg, if_neg hneg, if_neg hneg, if_neg hneg,
      wrap32_of_range (x := irow + row_offset) (by omega) (by omega),
      wrap32_of_range (x := irow + row_offset + 1) (by omega) (by omega)]
    exact ⟨rfl, by omega⟩

/-- C14 on the code: when `centerRow + windowOffset + 1` does not fit an `int`,
the end bound of `Visit`, computed with wrap-around, is the negative number
`centerRow + windowOffset + 1 - 2^32` and not `min(centerRow + windowOffset,
num_rows - 1) + 1`; the loop never meets it, and with a visitor that never
stops it visits the rows up to the last one and then leaves the chunk vector. -/
theorem C14_end_bound_wraps {σ : Type} (T : CType) (t : Table) (icol : Int)
    (col : ArrowColumn) (a : ArrowType) (centerRow windowOffset : Int)
    (visitor : σ → Scalar → Int → Bool × σ) (s : σ)
    (hcol : t.column icol = some col) (hty : col.type = some a)
    (hT : Table.AssertRes T a = true) (hrows : col.length = t.num_rows)
    (h0 : 0 ≤ centerRow) (hc : centerRow < t.num_rows)
    (ho1 : 0 ≤ windowOffset) (ho2 : windowOffset < 2147483648)
    (hov : 2147483648 ≤ centerRow + windowOffset + 1)
    (hno : ∀ s v p, (visitor s v p).1 = false) :
    Table.VisitEnd centerRow windowOffset t.num_rows =
      centerRow + windowOffset + 1 - 4294967296 ∧
    Table.VisitEnd centerRow windowOffset t.num_rows < 0 ∧
    min (centerRow + windowOffset) (t.num_rows - 1) + 1 = t.num_rows ∧
    (t.Visit T centerRow icol windowOffset visitor s).result = some .undefined ∧
    (t.Visit T centerRow icol windowOffset visitor s).calls.length =
      (t.num_rows - centerRow).toNat := by
  have h31 := num_rows_lt t
  have he : Table.VisitEnd centerRow windowOffset t.num_rows =
      centerRow + windowOffset + 1 - 4294967296 := by
    unfold Table.VisitEnd
    rw [if_neg (by omega)]
    unfold wrap32
    omega
  refine ⟨he, by rw [he]; omega, by omega, ?_, ?_⟩
  · rw [Visit_eq_feed T t icol col a centerRow windowOffset visitor s hcol hty hT hrows h0
      hc (by omega) ho2, feed_never_stop visitor _ hno, if_neg (by omega)]
  · rw [Visit_eq_feed T t icol col a centerRow windowOffset visitor s hcol hty hT hrows h0
      hc (by omega) ho2, feed_never_stop visitor _ hno]
    simp only
    rw [windowCalls_length]
    unfold windowBegin windowLast
    rw [if_neg (by omega), if_neg (by omega)]
    omega

/-- C14 at the failing input: on the five-row example table,
`Visit(0, col, 2147483647)` has the end bound `-2147483648` instead of 5,
visits all five rows and then leaves the chunk vector. -/
theorem C14_end_bound_wraps_witness :
    Table.VisitEnd 0 2147483647 table5.num_rows = -2147483648 ∧
    (table5.Visit .int32_t 0 0 2147483647 countVisitor 0).result = some .undefined ∧
    (table5.Visit .int32_t 0 0 2147483647 countVisitor 0).calls.length = 5 :=
  have h := C14_end_bound_wraps .int32_t table5 0
    ⟨some .INT32, [intChunk [10, 20], intChunk [30, 40, 50]]⟩ .INT32 0 2147483647
    countVisitor 0 (by decide) rfl (by decide) (by decide) (by decide) (by decide)
    (by decide) (by decide) (by decide) (fun _ _ _ => rfl)
  ⟨h.1.trans (by decide), h.2.2.2.1, h.2.2.2.2.trans (by decide)⟩

/-! ## Re-baselining in the loop of `Visit` -/

theorem sum_length_nonneg (cs : List Chunk) : 0 ≤ (cs.map Chunk.length).sum := by
  induction cs with
  | nil => simp
  | cons c cs ih =>
    simp only [List.map_cons, List.sum_cons, Chunk.length]
    omega

/-- A cursor that stands on chunk `n` behind the chunks `pre`: chunk `n` is the
current chunk and the skipped length is the length of `pre`. -/
theorem skipped_of_split (chunks pre rest : List Chunk) (chunk : Chunk) (n : Nat)
    (hsplit : pre ++ chunk :: rest = chunks) (hn : pre.length = n) :
    chunks[n]? = some chunk ∧ skipped chunks n = (pre.map Chunk.length).sum := by
  subst hsplit
  subst hn
  constructor
  · rw [List.getElem?_append_right (le_refl _)]
    simp
  · unfold skipped
    rw [List.take_left]

/-- The inner loop of `Visit` takes the same length off `i`, `irow` and
`irow_end`: the sums with the skipped length stay as they are. -/
theorem VisitSkip_rebase (rest : List Chunk) :
    ∀ (pre : List Chunk) (chunk : Chunk) (n : Nat) (i irow_end irow : Int)
      (st1 : Table.VisitState),
      Table.VisitSkip chunk n i irow_end irow rest = .ok st1 →
      pre.length = n → 0 ≤ i → i ≤ irow_end → irow_end < 2147483648 →
      irow < 2147483648 → -2147483648 ≤ irow - i →
      ∃ pre1, pre1 ++ st1.chunk :: st1.rest = pre ++ chunk :: rest ∧ pre1.length = st1.n ∧
        st1.i + (pre1.map Chunk.length).sum = i + (pre.map Chunk.length).sum ∧
        st1.irow + (pre1.map Chunk.length).sum = irow + (pre.map Chunk.length).sum ∧
        st1.irow_end + (pre1.map Chunk.length).sum =
          irow_end + (pre.map Chunk.length).sum ∧
        0 ≤ st1.i ∧ st1.i < st1.chunk.length := by
  induction rest with
  | nil =>
    intro pre chunk n i irow_end irow st1 h hn h0 _ _ _ _
    unfold Table.VisitSkip at h
    by_cases hge : i ≥ chunk.length
    · rw [if_pos hge] at h
      cases h
    · rw [if_neg hge] at h
      cases h
      exact ⟨pre, rfl, hn, rfl, rfl, rfl, h0, by simp only; omega⟩
  | cons next rest ih =>
    intro pre chunk n i irow_end irow st1 h hn h0 hie he hr1 hr2
    unfold Table.VisitSkip at h
    by_cases hge : i ≥ chunk.length
    · rw [if_pos hge] at h
      have hlen : 0 ≤ chunk.length := by unfold Chunk.length; omega
      rw [wrap32_of_range (x := i - chunk.length) (by omega) (by omega),
        wrap32_of_range (x := irow_end - chunk.length) (by omega) (by omega),
        wrap32_of_range (x := irow - chunk.length) (by omega) (by omega)] at h
      obtain ⟨pre1, g1, g2, g3, g4, g5, g6, g7⟩ :=
        ih (pre ++ [chunk]) next (n + 1) _ _ _ st1 h (by simp [hn]) (by omega) (by omega)
          (by omega) (by omega) (by omega)
      refine ⟨pre1, ?_, g2, ?_, ?_, ?_, g6, g7⟩
      · rw [g1]; simp
      · rw [g3]; simp only [List.map_append, List.sum_append, List.map_cons, List.map_nil,
          List.sum_cons, List.sum_nil]; omega
      · rw [g4]; simp only [List.map_append, List.sum_append, List.map_cons, List.map_nil,
          List.sum_cons, List.sum_nil]; omega
      · rw [g5]; simp only [List.map_append, List.sum_append, List.map_cons, List.map_nil,
          List.sum_cons, List.sum_nil]; omega
    · rw [if_neg hge] at h
      cases h
      exact ⟨pre, rfl, hn, rfl, rfl, rfl, h0, by simp only; omega⟩

/-- The re-baselining invariant at every invocation of the visitor, for a
loop started on row `row` with the end bound `E` not yet passed. -/
theorem VisitLoopStates_rebase {σ : Type} (T : CType) (col : ArrowColumn)
    (visitor : σ → Scalar → Int → Bool × σ) (chunks : List Chunk) (center E : Int)
    (hc0 : 0 ≤ center) (hc1 : center < 2147483648) (hE : E < 2147483648) :
    ∀ (fuel : Nat) (st : Table.VisitState) (s : σ) (pre : List Chunk) (row : Int),
      pre ++ st.chunk :: st.rest = chunks → pre.length = st.n →
      st.i + (pre.map Chunk.length).sum = row →
      st.irow + (pre.map Chunk.length).sum = center →
      st.irow_end + (pre.map Chunk.length).sum = E →
      0 ≤ st.i → row ≤ E →
      ∀ (j : Nat) (st2 : Table.VisitState),
        (Table.VisitLoopStates T col visitor fuel st s)[j]? = some st2 →
        chunks[st2.n]? = some st2.chunk ∧
        st2.i + skipped chunks st2.n = row + j ∧
        st2.irow + skipped chunks st2.n = center ∧
        st2.irow_end + skipped chunks st2.n = E ∧
        0 ≤ st2.i ∧ st2.i < st2.chunk.length ∧ row + j < E := by
  intro fuel
  induction fuel with
  | zero =>
    intro st s pre row _ _ _ _ _ _ _ j st2 h
    simp [Table.VisitLoopStates] at h
  | succ f ih =>
    intro st s pre row hsplit hn hi hr he h0 hle j st2 h
    have hB := sum_length_nonneg pre
    unfold Table.VisitLoopStates at h
    by_cases heq : st.i = st.irow_end
    · rw [if_pos heq] at h
      simp at h
    · rw [if_neg heq] at h
      cases hsk : Table.VisitSkip st.chunk st.n st.i st.irow_end st.irow st.rest with
      | fatal e => rw [hsk] at h; simp at h
      | undefined => rw [hsk] at h; simp at h
      | ok st1 =>
        rw [hsk] at h
        simp only at h
        obtain ⟨pre1, g1, g2, g3, g4, g5, g6, g7⟩ :=
          VisitSkip_rebase st.rest pre st.chunk st.n st.i st.irow_end st.irow st1 hsk hn h0
            (by omega) (by omega) (by omega) (by omega)
        rw [hsplit] at g1
        obtain ⟨k1, k2⟩ := skipped_of_split chunks pre1 st1.rest st1.chunk st1.n g1 g2
        have hfirst : chunks[st1.n]? = some st1.chunk ∧
            st1.i + skipped chunks st1.n = row + (0 : Nat) ∧
            st1.irow + skipped chunks st1.n = center ∧
            st1.irow_end + skipped chunks st1.n = E ∧
            0 ≤ st1.i ∧ st1.i < st1.chunk.length ∧ row + (0 : Nat) < E :=
          ⟨k1, by rw [k2]; push_cast; omega, by rw [k2]; omega, by rw [k2]; omega, g6, g7,
            by push_cast; omega⟩
        cases hrd : Table.VisitRead T col st1.chunk st1.i with
        | fatal e => rw [hrd] at h; simp at h
        | undefined => rw [hrd] at h; simp at h
        | ok v =>
          rw [hrd] at h
          simp only at h
          by_cases hstop : (visitor s v (wrap32 (st1.i - st1.irow))).1 = true
          · rw [if_pos hstop] at h
            cases j with
            | zero =>
              simp at h
              subst h
              exact hfirst
            | succ j => simp at h
          · rw [if_neg hstop] at h
            cases j with
            | zero =>
              simp at h
              subst h
              exact hfirst
            | succ j =>
              simp only [List.getElem?_cons_succ] at h
              have hB1 := sum_length_nonneg pre1
              have hw : wrap32 (st1.i + 1) = st1.i + 1 :=
                wrap32_of_range (by omega) (by omega)
              rw [hw] at h
              have hres := ih { st1 with i := st1.i + 1 } _ pre1 (row + 1) g1 g2
                (by simp only; omega) (by simp only; omega) (by simp only; omega)
                (by simp only; omega) (by omega) j st2 h
              obtain ⟨r1, r2, r3, r4, r5, r6, r7⟩ := hres
              exact ⟨r1, by rw [r2]; push_cast; omega, r3, r4, r5, r6,
                by push_cast; omega⟩

/-- The recorded states belong to the invocations of the run: the relative
positions handed to the visitor are those computed from the recorded states. -/
theorem VisitLoopStates_calls {σ : Type} (T : CType) (col : ArrowColumn)
    (visitor : σ → Scalar → Int → Bool × σ) :
    ∀ (fuel : Nat) (st : Table.VisitState) (s : σ),
      (Table.VisitLoop T col visitor fuel st s).calls.map Prod.snd =
        (Table.VisitLoopStates T col visitor fuel st s).map
          (fun st => wrap32 (st.i - st.irow)) := by
  intro fuel
  induction fuel with
  | zero => intro st s; rfl
  | succ f ih =>
    intro st s
    unfold Table.VisitLoop Table.VisitLoopStates
    by_cases heq : st.i = st.irow_end
    · rw [if_pos heq, if_pos heq]; rfl
    · rw [if_neg heq, if_neg heq]
      cases hsk : Table.VisitSkip st.chunk st.n st.i st.irow_end st.irow st.rest with
      | fatal e => rfl
      | undefined => rfl
      | ok st1 =>
        simp only
        cases hrd : Table.VisitRead T col st1.chunk st1.i with
        | fatal e => rfl
        | undefined => rfl
        | ok v =>
          simp only
          by_cases hstop : (visitor s v (wrap32 (st1.i - st1.irow))).1 = true
          · rw [if_pos hstop, if_pos hstop]; rfl
          · rw [if_neg hstop, if_neg hstop]
            simp only [VisitRun.cons, List.map_cons]
            rw [ih]

theorem VisitStates_calls {σ : Type} (T : CType) (t : Table) (irow icol row_offset : Int)
    (visitor : σ → Scalar → Int → Bool × σ) (s : σ) :
    (t.Visit T irow icol row_offset visitor s).calls.map Prod.snd =
      (t.VisitStates T irow icol row_offset visitor s).map
        (fun st => wrap32 (st.i - st.irow)) := by
  unfold Table.Visit Table.VisitStates Table.VisitBegin Table.VisitEnd
  cases t.column icol with
  | none => rfl
  | some col =>
    simp only
    by_cases hr : irow ≥ t.num_rows
    · rw [if_pos hr, if_pos hr]; rfl
    · rw [if_neg hr, if_neg hr]
      cases col.chunks with
      | nil => rfl
      | cons chunk rest => exact VisitLoopStates_calls T col visitor _ _ s

/-- Without overflow the window of `Visit` is not empty, ends inside the
column and has at most `|row_offset| + 1` rows. -/
theorem VisitBounds_order (irow row_offset num_rows : Int) (h0 : 0 ≤ irow)
    (hc : irow < num_rows) (hn : num_rows < 2147483648)
    (ho1 : -2147483648 ≤ row_offset)
    (hnov : row_offset < 0 ∨ irow + row_offset + 1 < 2147483648) :
    0 ≤ Table.VisitBegin irow row_offset ∧
    Table.VisitBegin irow row_offset < Table.VisitEnd irow row_offset num_rows ∧
    Table.VisitEnd irow row_offset num_rows ≤ num_rows ∧
    Table.VisitEnd irow row_offset num_rows - Table.VisitBegin irow row_offset ≤
      (row_offset.natAbs : Int) + 1 := by
  obtain ⟨hb, he⟩ := VisitBounds_eq irow row_offset num_rows h0 hc hn ho1 hnov
  rw [hb, he]
  unfold windowBegin windowLast
  by_cases hneg : row_offset < 0
  · rw [if_pos hneg, if_pos hneg]; omega
  · rw [if_neg hneg, if_neg hneg]; omega

/-- The re-baselining invariant at the `j`-th invocation of the visitor in a
run of `Visit` on a valid centre row whose bounds do not overflow. -/
theorem VisitStates_rebase {σ : Type} (T : CType) (t : Table) (icol : Int)
    (col : ArrowColumn) (centerRow windowOffset : Int)
    (visitor : σ → Scalar → Int → Bool × σ) (s : σ)
    (hcol : t.column icol = some col)
    (h0 : 0 ≤ centerRow) (hc : centerRow < t.num_rows)
    (ho1 : -2147483648 ≤ windowOffset)
    (hnov : windowOffset < 0 ∨ centerRow + windowOffset + 1 < 2147483648)
    (j : Nat) (st : Table.VisitState)
    (hst : (t.VisitStates T centerRow icol windowOffset visitor s)[j]? = some st) :
    col.chunks[st.n]? = some st.chunk ∧
    st.i + skipped col.chunks st.n = Table.VisitBegin centerRow windowOffset + j ∧
    st.irow + skipped col.chunks st.n = centerRow ∧
    st.irow_end + skipped col.chunks st.n =
      Table.VisitEnd centerRow windowOffset t.num_rows ∧
    0 ≤ st.i ∧ st.i < st.chunk.length ∧
    Table.VisitBegin centerRow windowOffset + j <
      Table.VisitEnd centerRow windowOffset t.num_rows := by
  have h31 := num_rows_lt t
  obtain ⟨b0, b1, b2, _⟩ :=
    VisitBounds_order centerRow windowOffset t.num_rows h0 hc h31 ho1 hnov
  unfold Table.VisitStates at hst
  rw [hcol] at hst
  simp only at hst
  rw [if_neg (by omega)] at hst
  cases hch : col.chunks with
  | nil => rw [hch] at hst; simp at hst
  | cons chunk rest =>
    rw [hch] at hst
    simp only at hst
    exact VisitLoopStates_rebase T col visitor (chunk :: rest) centerRow
      (Table.VisitEnd centerRow windowOffset t.num_rows) h0 (by omega) (by omega)
      (col.cells.length + 1)
      ⟨rest, 0, chunk, Table.VisitBegin centerRow windowOffset,
        Table.VisitEnd centerRow windowOffset t.num_rows, centerRow⟩ s []
      (Table.VisitBegin centerRow windowOffset) rfl rfl (by simp) (by simp) (by simp)
      b0 (by omega) j st hst

/-- The re-baselining invariant of the loop of `Visit` where it holds: on a
valid centre row with bounds that do not overflow, at the `j`-th invocation of
the visitor, with `B` the total length of the chunks already skipped, the
cursor stands on chunk `n` of the column, `i + B` is the physical row (the `j`-th row of the window),
`irow + B` is the `centerRow` the caller passed, `irow_end + B` is the original
end bound, and `0 <= i < length of the current chunk`; so `i - irow`, the
relative position handed to the visitor, and `irow_end - i`, the number of rows
still to visit, do not depend on the chunks skipped. -/
theorem Visit_rebaselining {σ : Type} (T : CType) (t : Table) (icol : Int)
    (col : ArrowColumn) (centerRow windowOffset : Int)
    (visitor : σ → Scalar → Int → Bool × σ) (s : σ)
    (hcol : t.column icol = some col)
    (h0 : 0 ≤ centerRow) (hc : centerRow < t.num_rows)
    (ho1 : -2147483648 ≤ windowOffset)
    (hnov : windowOffset < 0 ∨ centerRow + windowOffset + 1 < 2147483648)
    (j : Nat) (st : Table.VisitState)
    (hst : (t.VisitStates T centerRow icol windowOffset visitor s)[j]? = some st) :
    col.chunks[st.n]? = some st.chunk ∧
    st.i + skipped col.chunks st.n = Table.VisitBegin centerRow windowOffset + j ∧
    st.irow + skipped col.chunks st.n = centerRow ∧
    st.irow_end + skipped col.chunks st.n =
      Table.VisitEnd centerRow windowOffset t.num_rows ∧
    0 ≤ st.i ∧ st.i < st.chunk.length ∧
    st.i - st.irow = Table.VisitBegin centerRow windowOffset + j - centerRow ∧
    st.irow_end - st.i =
      Table.VisitEnd centerRow windowOffset t.num_rows -
        (Table.VisitBegin centerRow windowOffset + j) ∧
    ((t.Visit T centerRow icol windowOffset visitor s).calls.map Prod.snd)[j]? =
      some (st.i - st.irow) := by
  obtain ⟨r1, r2, r3, r4, r5, r6, r7⟩ := VisitStates_rebase T t icol col centerRow
    windowOffset visitor s hcol h0 hc ho1 hnov j st hst
  have h31 := num_rows_lt t
  obtain ⟨b0, b1, b2, _⟩ :=
    VisitBounds_order centerRow windowOffset t.num_rows h0 hc h31 ho1 hnov
  have hB : 0 ≤ skipped col.chunks st.n := sum_length_nonneg _
  refine ⟨r1, r2, r3, r4, r5, r6, by omega, by omega, ?_⟩
  rw [VisitStates_calls, List.getElem?_map, hst]
  simp only [Option.map_some']
  unfold Chunk.length at r6
  rw [wrap32_of_range (x := st.i - st.irow) (by omega) (by omega)]

/-- The invariant on chunks `[10]`, `[]`, `[20, 30, 40]`, `[50]`, `[]`: in
`Visit(2, col, -1)` the second invocation, for row 2, happens on chunk 2 with
one row skipped, `i = 1`, `irow = 1`, `irow_end = 2`. -/
theorem Visit_rebaselining_example :
    (table5b.VisitStates .int32_t 2 0 (-1) countVisitor 0)[1]? =
      some ⟨[intChunk [50], intChunk []], 2, intChunk [20, 30, 40], 1, 2, 1⟩ ∧
    (1 : Int) + skipped
      [intChunk [10], intChunk [], intChunk [20, 30, 40], intChunk [50], intChunk []] 2 =
      Table.VisitBegin 2 (-1) + (1 : Nat) :=
  ⟨by decide,
    (Visit_rebaselining .int32_t table5b 0
      ⟨some .INT32, [intChunk [10], intChunk [], intChunk [20, 30, 40], intChunk [50],
        intChunk []]⟩ 2 (-1) countVisitor 0 (by decide) (by decide) (by decide) (by decide)
      (by decide) 1 ⟨[intChunk [50], intChunk []], 2, intChunk [20, 30, 40], 1, 2, 1⟩
      (by decide)).2.1⟩

/-- C15 at the failing input, the one of C14: on the five-row example table in
chunks `[10, 20]`, `[30, 40, 50]`, `Visit(0, col, 2147483647)` starts with the
wrapped end bound `-2147483648` where the window ends at row
`min(0 + 2147483647, 4) + 1 = 5`. After the second invocation, with `i = 2`,
the loop crosses to chunk 1 and subtracts the chunk length 2 from `i`, `irow`
and `irow_end`; `irow_end - 2` does not fit an `int` and wraps to
`2147483646`. At the third invocation, with `B = 2` rows skipped, `i + B` is
the physical row 2 and `irow + B` the centre row 0, and `i - irow` is
unchanged by the crossing, but `irow_end + B` is `2147483648`, neither the
original end bound of the code nor the end of the window, and `irow_end - i`
has changed from `-2147483650` to `2147483646`. -/
theorem C15_rebaselining_overflow :
    Table.VisitBegin 0 2147483647 = 0 ∧
    Table.VisitEnd 0 2147483647 table5.num_rows = -2147483648 ∧
    min ((0 : Int) + 2147483647) (table5.num_rows - 1) + 1 = 5 ∧
    (table5.VisitStates .int32_t 0 0 2147483647 countVisitor 0)[1]? =
      some ⟨[intChunk [30, 40, 50]], 0, intChunk [10, 20], 1, -2147483648, 0⟩ ∧
    Table.VisitSkip (intChunk [10, 20]) 0 2 (-2147483648) 0 [intChunk [30, 40, 50]] =
      .ok ⟨[], 1, intChunk [30, 40, 50], 0, 2147483646, -2⟩ ∧
    (table5.VisitStates .int32_t 0 0 2147483647 countVisitor 0)[2]? =
      some ⟨[], 1, intChunk [30, 40, 50], 0, 2147483646, -2⟩ ∧
    skipped [intChunk [10, 20], intChunk [30, 40, 50]] 1 = 2 ∧
    (0 : Int) + skipped [intChunk [10, 20], intChunk [30, 40, 50]] 1 =
      Table.VisitBegin 0 2147483647 + 2 ∧
    (-2 : Int) + skipped [intChunk [10, 20], intChunk [30, 40, 50]] 1 = 0 ∧
    (2 : Int) - 0 = 0 - (-2) ∧
    (2147483646 : Int) + skipped [intChunk [10, 20], intChunk [30, 40, 50]] 1 ≠
      Table.VisitEnd 0 2147483647 table5.num_rows ∧
    (2147483646 : Int) + skipped [intChunk [10, 20], intChunk [30, 40, 50]] 1 ≠
      min ((0 : Int) + 2147483647) (table5.num_rows - 1) + 1 ∧
    (-2147483648 : Int) - 2 ≠ 2147483646 - 0 := by
  decide

/-! ## Bounds of the chunk walk and termination -/

/-- C16 at the failing input: on the five-row example table in chunks
`[10, 20]`, `[30, 40, 50]`, `Visit(4, col, 2147483647)` with a visitor that
never stops visits the last row, row 4, and then, with `i = 3` on the last
chunk (chunk 1, of length 3) and the wrapped end bound not met, advances the
chunk cursor past the last chunk; `Value` on the same row stays inside. -/
theorem C16_cursor_past_last_chunk :
    (table5.Visit .int32_t 4 0 2147483647 countVisitor 0).calls = [(.int 50, 0)] ∧
    (table5.VisitStates .int32_t 4 0 2147483647 countVisitor 0) =
      [⟨[], 1, intChunk [30, 40, 50], 2, -2147483646, 2⟩] ∧
    Table.VisitSkip (intChunk [30, 40, 50]) 1 3 (-2147483646) 2 [] = .undefined ∧
    (table5.Visit .int32_t 4 0 2147483647 countVisitor 0).result = some .undefined ∧
    table5.Value .int32_t 4 0 = .ok (.int 50) := by
  decide

theorem feed_result_ok {σ : Type} (visitor : σ → Scalar → Int → Bool × σ) :
    ∀ (w : List (Scalar × Int)) (s : σ),
      (feed visitor (some (.ok ())) w s).result = some (.ok ()) := by
  intro w
  induction w with
  | nil => intro s; rfl
  | cons c cs ih =>
    intro s
    unfold feed
    by_cases h : (visitor s c.1 c.2).1 = true
    · rw [if_pos h]
    · rw [if_neg h]
      exact ih _

/-- C17: termination of `Visit`. On a column whose chunk lengths sum to
`num_rows`, for a valid `centerRow` and a `windowOffset` whose bounds do not
overflow, `irow_begin <= irow_end` holds initially, at the `j`-th invocation of
the visitor `irow_end - i` is `irow_end - irow_begin` of the start less `j` (one
less per iteration), and the loop ends: `Visit` returns, whatever the visitor
does, after at most `|windowOffset| + 1` invocations. -/
theorem C17_visit_terminates {σ : Type} (T : CType) (t : Table) (icol : Int)
    (col : ArrowColumn) (a : ArrowType) (centerRow windowOffset : Int)
    (visitor : σ → Scalar → Int → Bool × σ) (s : σ)
    (hcol : t.column icol = some col) (hty : col.type = some a)
    (hT : Table.AssertRes T a = true) (hrows : col.length = t.num_rows)
    (h0 : 0 ≤ centerRow) (hc : centerRow < t.num_rows)
    (ho1 : -2147483648 ≤ windowOffset)
    (hnov : windowOffset < 0 ∨ centerRow + windowOffset + 1 < 2147483648) :
    Table.VisitBegin centerRow windowOffset ≤
      Table.VisitEnd centerRow windowOffset t.num_rows ∧
    (t.Visit T centerRow icol windowOffset visitor s).result = some (.ok ()) ∧
    (∀ (j : Nat) (st : Table.VisitState),
      (t.VisitStates T centerRow icol windowOffset visitor s)[j]? = some st →
      st.irow_end - st.i =
        Table.VisitEnd centerRow windowOffset t.num_rows -
          Table.VisitBegin centerRow windowOffset - j ∧
      0 < st.irow_end - st.i) ∧
    (t.VisitStates T centerRow icol windowOffset visitor s).length =
      (t.Visit T centerRow icol windowOffset visitor s).calls.length ∧
    (t.Visit T centerRow icol windowOffset visitor s).calls.length ≤
      windowOffset.natAbs + 1 := by
  have h31 := num_rows_lt t
  obtain ⟨b0, b1, b2, b3⟩ :=
    VisitBounds_order centerRow windowOffset t.num_rows h0 hc h31 ho1 hnov
  obtain ⟨e1, e2⟩ := VisitBounds_eq centerRow windowOffset t.num_rows h0 hc h31 ho1 hnov
  have hfeed := Visit_eq_feed T t icol col a centerRow windowOffset visitor s hcol hty hT
    hrows h0 hc ho1 (by omega)
  rw [if_pos hnov] at hfeed
  refine ⟨by omega, ?_, ?_, ?_, ?_⟩
  · rw [hfeed]
    exact feed_result_ok visitor _ s
  · intro j st hst
    obtain ⟨_, r2, _, r4, _, _, r7⟩ := VisitStates_rebase T t icol col centerRow
      windowOffset visitor s hcol h0 hc ho1 hnov j st hst
    constructor <;> omega
  · have h := congrArg List.length
      (VisitStates_calls T t centerRow icol windowOffset visitor s)
    simp only [List.length_map] at h
    exact h.symm
  · rw [hfeed]
    obtain ⟨k, hk⟩ := feed_calls_take visitor (some (.ok ()))
      (windowCalls T col t.num_rows centerRow windowOffset) s
    rw [hk, List.length_take, windowCalls_length]
    omega

/-- C17 on chunks `[10]`, `[]`, `[20, 30, 40]`, `[50]`, `[]`: `Visit(2, col, -7)`
is clipped at row 0, returns, and has made 3 invocations, at most 8. -/
theorem C17_visit_terminates_witness :
    (table5b.Visit .int32_t 2 0 (-7) countVisitor 0).result = some (.ok ()) ∧
    (table5b.Visit .int32_t 2 0 (-7) countVisitor 0).calls.length ≤ 8 ∧
    (table5b.Visit .int32_t 2 0 (-7) countVisitor 0).calls.length = 3 :=
  have h := C17_visit_terminates .int32_t table5b 0
    ⟨some .INT32, [intChunk [10], intChunk [], intChunk [20, 30, 40], intChunk [50],
      intChunk []]⟩ .INT32 2 (-7) countVisitor 0 (by decide) rfl (by decide) (by decide)
    (by decide) (by decide) (by decide) (by decide)
  ⟨h.2.1, h.2.2.2.2, by decide⟩

/-! ## Negative row indices -/

theorem readOr_ne_fatal (col : ArrowColumn) (cls : ArrowType) (dflt : Scalar)
    (chunk : Chunk) (i : Int) (e : Err) : readOr col cls dflt chunk i ≠ .fatal e := by
  unfold readOr Chunk.IsNull Chunk.Value
  cases chunk.slot? i with
  | none => simp
  | some s =>
    cases hn : s.isNull <;> by_cases h : col.type = some cls <;> simp [h, hn]

theorem ValueRead_ne_fatal (T : CType) (col : ArrowColumn) (chunk : Chunk) (i : Int)
    (e : Err) : Table.ValueRead T col chunk i ≠ .fatal e := by
  cases T <;> simp only [Table.ValueRead] <;>
    first
    | exact readOr_ne_fatal _ _ _ _ _ _
    | simp

theorem VisitRead_fatal (T : CType) (col : ArrowColumn) (chunk : Chunk) (i : Int)
    (e : Err) (h : Table.VisitRead T col chunk i = .fatal e) : e = .assertFailed := by
  cases T <;> simp only [Table.VisitRead] at h <;>
    first
    | exact absurd h (readOr_ne_fatal _ _ _ _ _ _)
    | (cases h; rfl)

theorem VisitSkip_ne_fatal (rest : List Chunk) :
    ∀ (chunk : Chunk) (n : Nat) (i irow_end irow : Int) (e : Err),
      Table.VisitSkip chunk n i irow_end irow rest ≠ .fatal e := by
  induction rest with
  | nil =>
    intro chunk n i irow_end irow e
    unfold Table.VisitSkip
    by_cases hge : i ≥ chunk.length
    · rw [if_pos hge]; simp
    · rw [if_neg hge]; simp
  | cons next rest ih =>
    intro chunk n i irow_end irow e
    unfold Table.VisitSkip
    by_cases hge : i ≥ chunk.length
    · rw [if_pos hge]; exact ih _ _ _ _ _ _
    · rw [if_neg hge]; simp

/-- The loop of `Visit` raises no `LOG_FATAL`: the only failure inside it is
the `assert(false)` of a type outside the twelve. -/
theorem VisitLoop_fatal {σ : Type} (T : CType) (col : ArrowColumn)
    (visitor : σ → Scalar → Int → Bool × σ) :
    ∀ (fuel : Nat) (st : Table.VisitState) (s : σ) (e : Err),
      (Table.VisitLoop T col visitor fuel st s).result = some (.fatal e) →
      e = .assertFailed := by
  intro fuel
  induction fuel with
  | zero =>
    intro st s e h
    simp [Table.VisitLoop] at h
  | succ f ih =>
    intro st s e h
    unfold Table.VisitLoop at h
    by_cases heq : st.i = st.irow_end
    · rw [if_pos heq] at h
      simp at h
    · rw [if_neg heq] at h
      cases hsk : Table.VisitSkip st.chunk st.n st.i st.irow_end st.irow st.rest with
      | fatal e2 => exact absurd hsk (VisitSkip_ne_fatal _ _ _ _ _ _ _)
      | undefined => rw [hsk] at h; simp at h
      | ok st1 =>
        rw [hsk] at h
        simp only at h
        cases hrd : Table.VisitRead T col st1.chunk st1.i with
        | fatal e2 =>
          rw [hrd] at h
          simp only [Option.some.injEq, Res.fatal.injEq] at h
          rw [← h]
          exact VisitRead_fatal T col st1.chunk st1.i e2 hrd
        | undefined => rw [hrd] at h; simp at h
        | ok v =>
          rw [hrd] at h
          simp only at h
          by_cases hstop : (visitor s v (wrap32 (st1.i - st1.irow))).1 = true
          · rw [if_pos hstop] at h
            simp at h
          · rw [if_neg hstop] at h
            exact ih _ _ e h

/-- C18, amended: the row check of `Value` and `Visit` is one-sided. On a
table whose `num_rows()` is not negative, for every negative row index neither
function raises the out-of-range error. On a column that has at least one
chunk, `Value` skips the chunk walk and indexes the first chunk at the negative
position, which is outside the chunk, for each of the twelve supported types;
`Visit` with `centerRow = -1` and a negative `windowOffset` greater than
`-2^31` returns normally having invoked the visitor zero times. -/
theorem C18_negative_row {σ : Type} (T : CType) (t : Table) (icol : Int) (r : Int)
    (hn : 0 ≤ t.num_rows) (hr : r < 0) :
    t.Value T r icol ≠ .fatal .rowIndexOutOfRange ∧
    (∀ (off : Int) (visitor : σ → Scalar → Int → Bool × σ) (s : σ),
      (t.Visit T r icol off visitor s).result ≠ some (.fatal .rowIndexOutOfRange)) ∧
    (∀ (col : ArrowColumn) (chunk0 : Chunk) (rest : List Chunk),
      t.column icol = some col → col.chunks = chunk0 :: rest →
      Table.ValueWalk chunk0 0 r rest = .ok (0, chunk0, r) ∧
      chunk0.slot? r = none ∧
      (T ≠ .other → t.Value T r icol = .undefined) ∧
      (∀ (off : Int) (visitor : σ → Scalar → Int → Bool × σ) (s : σ),
        -2147483648 < off → off < 0 →
        t.Visit T (-1) icol off visitor s = ⟨[], s, some (.ok ())⟩)) := by
  refine ⟨?_, ?_, ?_⟩
  · unfold Table.Value
    cases hcol : t.column icol with
    | none => simp
    | some col =>
      simp only
      rw [if_neg (by omega)]
      cases hch : col.chunks with
      | nil => simp
      | cons chunk0 rest =>
        simp only
        cases hw : Table.ValueWalk chunk0 0 r rest with
        | ok x => exact ValueRead_ne_fatal T col _ _ _
        | fatal e =>
          have hwalk : Table.ValueWalk chunk0 0 r rest = .ok (0, chunk0, r) := by
            cases rest with
            | nil =>
              unfold Table.ValueWalk Chunk.length
              rw [if_neg (by omega)]
            | cons c cs =>
              unfold Table.ValueWalk Chunk.length
              rw [if_neg (by omega)]
          rw [hwalk] at hw
          cases hw
        | undefined => simp
  · intro off visitor s h
    cases hcol : t.column icol with
    | none =>
      unfold Table.Visit at h
      rw [hcol] at h
      cases h
    | some col =>
      cases hch : col.chunks with
      | nil =>
        unfold Table.Visit at h
        rw [hcol] at h
        simp only at h
        rw [if_neg (by omega), hch] at h
        cases h
      | cons chunk0 rest =>
        rw [Visit_bounds T t r icol off visitor s col chunk0 rest hcol (by omega) hch] at h
        have := VisitLoop_fatal T col visitor _ _ s _ h
        cases this
  · intro col chunk0 rest hcol hch
    have hwalk : Table.ValueWalk chunk0 0 r rest = .ok (0, chunk0, r) := by
      cases rest with
      | nil =>
        unfold Table.ValueWalk Chunk.length
        rw [if_neg (by omega)]
      | cons c cs =>
        unfold Table.ValueWalk Chunk.length
        rw [if_neg (by omega)]
    have hslot : chunk0.slot? r = none := by
      unfold Chunk.slot?
      rw [if_pos hr]
    have hval : t.Value T r icol = Table.ValueRead T col chunk0 r := by
      unfold Table.Value
      rw [hcol]
      simp only
      rw [if_neg (by omega), hch]
      simp only
      rw [hwalk]
    refine ⟨hwalk, hslot, ?_, ?_⟩
    · intro hT
      rw [hval]
      cases T <;> simp only [Table.ValueRead, readOr_of_none hslot]
      exact absurd rfl hT
    · intro off visitor s ho1 ho2
      rw [Visit_bounds T t (-1) icol off visitor s col chunk0 rest hcol (by omega) hch]
      have hb : Table.VisitBegin (-1) off = 0 := by
        unfold Table.VisitBegin
        rw [if_pos ho2, wrap32_of_range (x := -1 + off) (by omega) (by omega)]
        omega
      have he : Table.VisitEnd (-1) off t.num_rows = 0 := by
        unfold Table.VisitEnd
        rw [if_pos ho2]
        rfl
      rw [hb, he]
      unfold Table.VisitLoop
      rw [if_pos rfl]

/-- C18, amended, on the example table of five rows: `Value(-1)` and
`Visit(-1, col, off)` raise no out-of-range error, `Value(-1)` is an access
outside the first chunk, and `Visit(-1, col, -3)` returns without an
invocation. -/
theorem C18_negative_row_witness :
    table5.Value .int32_t (-1) 0 ≠ .fatal .rowIndexOutOfRange ∧
    (table5.Visit .int32_t (-1) 0 7 countVisitor 0).result ≠
      some (.fatal .rowIndexOutOfRange) ∧
    (intChunk [10, 20]).slot? (-1) = none ∧
    table5.Value .int32_t (-1) 0 = .undefined ∧
    table5.Visit .int32_t (-1) 0 (-3) countVisitor 0 = ⟨[], 0, some (.ok ())⟩ :=
  have h := @C18_negative_row Nat .int32_t table5 0 (-1) (by decide) (by decide)
  have h2 := h.2.2 ⟨some .INT32, [intChunk [10, 20], intChunk [30, 40, 50]]⟩
    (intChunk [10, 20]) [intChunk [30, 40, 50]] (by decide) rfl
  ⟨h.1, h.2.1 7 countVisitor 0, h2.2.1, h2.2.2.1 (by decide),
    h2.2.2.2 (-3) countVisitor 0 (by decide) (by decide)⟩

/-- C18 as stated fails, and each qualification of the amended claim is
forced. For the negative offset `-2^31`, `irow + row_offset` is `-1 - 2^31`,
which wraps to `2^31 - 1`, so `irow_begin` is `2^31 - 1` and `irow_end` is 0;
the loop starts, and the chunk cursor leaves the chunk vector in search of row
`2^31 - 1`: `Visit` does not return normally. On a column without a chunk
`Visit(-1, col, -3)` applies `chunk(0)` to an empty chunk vector, and `Value`
has no first chunk to index. On a table of `2^32 - 1` rows `num_rows()` is the
`int` -1, and both `Value(-1)` and `Visit(-1, col, -3)` raise the out-of-range
error. For a `T` outside the twelve supported types `Value(-1)` returns `T{}`
and indexes nothing. -/
theorem C18_counterexample :
    Table.VisitBegin (-1) (-2147483648) = 2147483647 ∧
    Table.VisitEnd (-1) (-2147483648) table5.num_rows = 0 ∧
    (table5.Visit .int32_t (-1) 0 (-2147483648) countVisitor 0).result = some .undefined ∧
    (table5.Visit .int32_t (-1) 0 (-2147483648) countVisitor 0).calls = [] ∧
    (table0.Visit .double (-1) 0 (-3) countVisitor 0).result = some .undefined ∧
    table0.Value .double (-1) 0 = .undefined ∧
    tableWide.num_rows = -1 ∧
    tableWide.Value .int8_t (-1) 0 = .fatal .rowIndexOutOfRange ∧
    (tableWide.Visit .int8_t (-1) 0 (-3) countVisitor 0).result =
      some (.fatal .rowIndexOutOfRange) ∧
    table5.Value .other (-1) 0 = .ok .zeroInit := by
  decide

/-! ## The fast path: `Column` and `Data` -/

/-- What a returning `Column<T>(icol)` has gone through: `Assert<T>`, the guard
on chunks and nulls, `chunk(0)` and the chain that makes the pointer. -/
theorem Column_ok (T : CType) (t : Table) (icol : Int) (p : Ptr)
    (h : t.Column T icol = .ok p) :
    ∃ col a chunk, t.column icol = some col ∧ col.type = some a ∧
      Table.AssertRes T a = true ∧ col.chunks = [chunk] ∧ col.null_count = 0 ∧
      Table.ColumnView T col chunk = .ok p := by
  unfold Table.Column at h
  cases hA : t.Assert T icol with
  | fatal e => rw [hA] at h; cases h
  | undefined => rw [hA] at h; cases h
  | ok u =>
    rw [hA] at h
    simp only at h
    obtain ⟨_, col, a, hcol, hty, hres⟩ := Assert_ok T t icol hA
    rw [hcol] at h
    simp only at h
    by_cases hbad : col.num_chunks > 1 ∨ col.null_count > 0
    · rw [if_pos hbad] at h
      cases h
    · rw [if_neg hbad] at h
      cases hch : col.chunks with
      | nil => rw [hch] at h; cases h
      | cons chunk rest =>
        rw [hch] at h
        simp only at h
        have hrest : rest = [] := by
          unfold ArrowColumn.num_chunks at hbad
          rw [hch] at hbad
          cases rest with
          | nil => rfl
          | cons c cs => simp at hbad
        subst hrest
        exact ⟨col, a, chunk, hcol, hty, hres, hch, by omega, h⟩

/-- C19: raw access to boolean and string columns yields no view. For
`T = bool` and `T = std::string`, on every column that passes `Assert<T>` and
is a single chunk without nulls, `Column<T>(icol)`, and `Data<T>()` on a
one-column table, neither fails nor returns a view: it returns the null
pointer. A pointer to values is returned only for the ten numeric types. -/
theorem C19_bool_string_nullptr (T : CType) (t : Table) (icol : Int) (col : ArrowColumn)
    (hT : T = .bool ∨ T = .string) (hassert : t.Assert T icol = .ok ())
    (hcol : t.column icol = some col) (h1 : col.num_chunks = 1)
    (hnull : col.null_count = 0) :
    t.Column T icol = .ok .nullptr ∧
    (t.num_columns = 1 → icol = 0 → t.Data T = .ok .nullptr) ∧
    (∀ (T2 : CType) (t2 : Table) (icol2 : Int) (buf : List Scalar),
      t2.Column T2 icol2 = .ok (.raw_values buf) →
      T2 ≠ .bool ∧ T2 ≠ .string ∧ T2 ≠ .other) := by
  have hC : t.Column T icol = .ok .nullptr := by
    unfold Table.Column
    rw [hassert]
    simp only
    rw [hcol]
    simp only
    rw [if_neg (by omega)]
    cases hch : col.chunks with
    | nil =>
      unfold ArrowColumn.num_chunks at h1
      rw [hch] at h1
      simp at h1
    | cons chunk rest =>
      simp only
      rcases hT with rfl | rfl <;> rfl
  refine ⟨hC, ?_, ?_⟩
  · intro hn hi
    subst hi
    unfold Table.Data
    rw [if_neg (by simp [hn])]
    exact hC
  · intro T2 t2 icol2 buf h
    obtain ⟨col2, a, chunk, _, _, _, _, _, hview⟩ := Column_ok T2 t2 icol2 _ h
    refine ⟨?_, ?_, ?_⟩ <;> intro hT2 <;> subst hT2 <;>
      simp [Table.ColumnView] at hview

/-- C19 on a `BOOL` column `[true, false]` in one chunk: `Column<bool>(0)` and
`Data<bool>()` return the null pointer. -/
theorem C19_bool_string_nullptr_witness :
    tableB.Column .bool 0 = .ok .nullptr ∧ tableB.Data .bool = .ok .nullptr :=
  have h := C19_bool_string_nullptr .bool tableB 0
    ⟨some .BOOL, [⟨[⟨false, .bool true⟩, ⟨false, .bool false⟩]⟩]⟩ (Or.inl rfl)
    (by decide) (by decide) (by decide) (by decide)
  ⟨h.1, h.2.1 (by decide) rfl⟩

/-- The pointer made by the chain of `Column` for a numeric type is the start
of the values buffer of the chunk. -/
theorem ColumnView_raw (T : CType) (col : ArrowColumn) (chunk : Chunk)
    (buf : List Scalar) (h : Table.ColumnView T col chunk = .ok (.raw_values buf)) :
    buf = chunk.slots.map (fun s => s.value) := by
  have key : ∀ cls, chunk.raw_values col cls = .ok (.raw_values buf) →
      buf = chunk.slots.map (fun s => s.value) := by
    intro cls hc
    unfold Chunk.raw_values at hc
    by_cases hty : col.type = some cls
    · rw [if_pos hty] at hc
      cases hc
      rfl
    · rw [if_neg hty] at hc
      cases hc
  cases T <;> simp only [Table.ColumnView] at h <;>
    first
    | exact key _ h
    | cases h

/-- A single chunk with null count zero has no null slot. -/
theorem no_null_of_null_count (col : ArrowColumn) (chunk : Chunk)
    (hch : col.chunks = [chunk]) (hnull : col.null_count = 0) :
    ∀ s ∈ chunk.slots, s.isNull = false := by
  unfold ArrowColumn.null_count at hnull
  rw [hch] at hnull
  simp only [List.map_cons, List.map_nil, List.sum_cons, List.sum_nil, add_zero,
    List.length_eq_zero] at hnull
  intro s hs
  cases hn : s.isNull with
  | false => rfl
  | true =>
    have hmem : s ∈ chunk.slots.filter (fun s => s.isNull) :=
      List.mem_filter.2 ⟨hs, hn⟩
    rw [hnull] at hmem
    cases hmem

/-- On a column of one chunk without nulls, element `r` of the values buffer is
the value of row `r`. -/
theorem buf_eq_at (T : CType) (col : ArrowColumn) (chunk : Chunk) (r : Int)
    (hch : col.chunks = [chunk]) (hnull : col.null_count = 0)
    (h0 : 0 ≤ r) (hr : r < (col.cells.length : Int)) :
    (chunk.slots.map (fun s => s.value))[r.toNat]? = some (col.at T r) := by
  have hcells : col.cells = chunk.slots := by
    simp [ArrowColumn.cells, hch, cellsOf]
  rw [hcells] at hr
  have hlt : r.toNat < chunk.slots.length := by omega
  unfold ArrowColumn.at
  rw [hcells, List.getElem?_map, List.getElem?_eq_getElem hlt]
  simp only [Option.map_some', Option.some.injEq]
  have hnn := no_null_of_null_count col chunk hch hnull _ (List.getElem_mem hlt)
  simp [Slot.get, hnn]

theorem elem_raw_values (buf : List Scalar) (r : Int) (h0 : 0 ≤ r) :
    (Ptr.raw_values buf).elem r = buf[r.toNat]? := by
  show (if r < 0 then none else buf[r.toNat]?) = _
  rw [if_neg (by omega)]

/-- For a numeric `T`, `Column<T>` on a single chunk of the kind of `T` is the
values buffer of that chunk. -/
theorem ColumnView_numeric (T : CType) (col : ArrowColumn) (chunk : Chunk)
    (hb : T ≠ .bool) (hs : T ≠ .string) (ho : T ≠ .other) (hty : col.type = T.arrow) :
    Table.ColumnView T col chunk = .ok (.raw_values (chunk.slots.map (fun s => s.value))) := by
  cases T <;> simp only [Table.ColumnView, Chunk.raw_values, CType.arrow] at hty ⊢ <;>
    first
    | rw [if_pos hty]
    | exact absurd rfl hb
    | exact absurd rfl hs
    | exact absurd rfl ho

/-- A view with values comes from a numeric `T` only. -/
theorem ColumnView_raw_numeric (T : CType) (col : ArrowColumn) (chunk : Chunk)
    (buf : List Scalar) (h : Table.ColumnView T col chunk = .ok (.raw_values buf)) :
    T ≠ .bool ∧ T ≠ .string ∧ T ≠ .other := by
  cases T <;> simp only [Table.ColumnView] at h <;>
    first
    | exact ⟨by decide, by decide, by decide⟩
    | cases h

/-- C20: the fast path and the general path agree. For a numeric `T` (one of
the twelve supported types other than `bool` and `std::string`), on a column
below `num_columns()` whose declared type is the one of `T`, with exactly one
chunk and null count zero, `Column<T>(icol)` succeeds and returns the values
buffer of the single chunk; and `Column<T>(icol)` returns a view with values
in no other case. Whenever it does, on a column whose chunk lengths sum to
`num_rows`, the view has `num_rows` elements, for every `r` with
`0 <= r < num_rows` its element `r` equals `Value<T>(r, icol)`, every pair
`(v, p)` that `Visit` passes to the visitor has `v` equal to the view's element
`centerRow + p`, and with a visitor that never stops the values passed are
exactly the view's elements at the rows of the window, in order. -/
theorem C20_fast_path_agrees {σ : Type} (T : CType) (t : Table) (icol : Int)
    (col : ArrowColumn)
    (hcol : t.column icol = some col) (hrows : col.length = t.num_rows) :
    (∀ chunk, T ≠ .bool → T ≠ .string → T ≠ .other → icol < t.num_columns →
      col.type = T.arrow → col.chunks = [chunk] → col.null_count = 0 →
      t.Column T icol = .ok (.raw_values (chunk.slots.map (fun s => s.value)))) ∧
    (∀ buf, t.Column T icol = .ok (.raw_values buf) →
      (T ≠ .bool ∧ T ≠ .string ∧ T ≠ .other ∧ icol < t.num_columns ∧
        col.type = T.arrow ∧ col.null_count = 0 ∧
        ∃ chunk, col.chunks = [chunk] ∧ buf = chunk.slots.map (fun s => s.value)) ∧
      (buf.length : Int) = t.num_rows ∧
      (∀ r, 0 ≤ r → r < t.num_rows →
        ∃ x, (Ptr.raw_values buf).elem r = some x ∧ t.Value T r icol = .ok x) ∧
      (∀ (centerRow windowOffset : Int) (visitor : σ → Scalar → Int → Bool × σ) (s : σ),
        0 ≤ centerRow → centerRow < t.num_rows →
        -2147483648 ≤ windowOffset → windowOffset < 2147483648 →
        (∀ c ∈ (t.Visit T centerRow icol windowOffset visitor s).calls,
          (Ptr.raw_values buf).elem (centerRow + c.2) = some c.1) ∧
        ((∀ s v p, (visitor s v p).1 = false) →
          (t.Visit T centerRow icol windowOffset visitor s).calls.map Prod.fst =
            (buf.drop (windowBegin centerRow windowOffset).toNat).take
              (windowLast t.num_rows centerRow windowOffset -
                windowBegin centerRow windowOffset + 1).toNat))) := by
  constructor
  · intro chunk hb hs ho hlt hty hch hnull
    have hA : t.Assert T icol = .ok () := by
      rw [Assert_of_column T t icol col hlt hcol, hty]
      cases T <;> first | rfl | exact absurd rfl ho
    unfold Table.Column
    rw [hA]
    simp only
    rw [hcol]
    simp only
    rw [if_neg (by unfold ArrowColumn.num_chunks; rw [hch, hnull]; simp), hch]
    exact ColumnView_numeric T col chunk hb hs ho hty
  intro buf hview
  obtain ⟨col2, a, chunk, hcol2, hty, hT, hch, hnull, hcv⟩ := Column_ok T t icol _ hview
  rw [hcol] at hcol2
  cases hcol2
  have hbuf := ColumnView_raw T col chunk buf hcv
  obtain ⟨hb, hs, ho⟩ := ColumnView_raw_numeric T col chunk buf hcv
  have hlt : icol < t.num_columns := by
    cases hA : t.Assert T icol with
    | ok u => exact (Assert_ok T t icol hA).1
    | fatal e =>
      unfold Table.Column at hview
      rw [hA] at hview
      cases hview
    | undefined =>
      unfold Table.Column at hview
      rw [hA] at hview
      cases hview
  have hlen := cells_length col
  have hcells : col.cells = chunk.slots := by
    simp [ArrowColumn.cells, hch, cellsOf]
  have helem : ∀ r, 0 ≤ r → r < t.num_rows →
      (Ptr.raw_values buf).elem r = some (col.at T r) := by
    intro r h0 hr
    rw [elem_raw_values buf r h0, hbuf]
    exact buf_eq_at T col chunk r hch hnull h0 (by omega)
  refine ⟨⟨hb, hs, ho, hlt, ?_, hnull, chunk, hch, hbuf⟩, ?_, ?_, ?_⟩
  · rw [hty]
    exact ((AssertRes_iff T a).1 hT).symm
  · rw [hbuf, List.length_map, ← hcells]
    omega
  · intro r h0 hr
    exact ⟨col.at T r, helem r h0 hr,
      Value_eq_at T t icol col a r hcol hty hT hrows h0 hr⟩
  · intro centerRow windowOffset visitor s h0 hc ho1 ho2
    have hfeed := Visit_eq_feed T t icol col a centerRow windowOffset visitor s hcol hty hT
      hrows h0 hc ho1 ho2
    have hb : 0 ≤ windowBegin centerRow windowOffset := by
      unfold windowBegin
      by_cases hneg : windowOffset < 0
      · rw [if_pos hneg]; omega
      · rw [if_neg hneg]; omega
    have hl : windowLast t.num_rows centerRow windowOffset < t.num_rows := by
      unfold windowLast
      by_cases hneg : windowOffset < 0
      · rw [if_pos hneg]; omega
      · rw [if_neg hneg]; omega
    constructor
    · intro c hmem
      rw [hfeed] at hmem
      obtain ⟨j, hj⟩ := feed_calls_take visitor
        (some (if windowOffset < 0 ∨ centerRow + windowOffset + 1 < 2147483648 then .ok ()
          else .undefined))
        (windowCalls T col t.num_rows centerRow windowOffset) s
      rw [hj] at hmem
      obtain ⟨row, hlo, hhi, rfl⟩ := mem_windowCalls (List.mem_of_mem_take hmem)
      simp only
      rw [show centerRow + (row - centerRow) = row by omega]
      exact helem row (by omega) (by omega)
    · intro hno
      rw [hfeed, feed_never_stop visitor _ hno]
      simp only
      unfold windowCalls
      rw [List.map_map]
      apply List.ext_getElem?
      intro k
      rw [List.getElem?_map, List.getElem?_take, List.getElem?_drop]
      by_cases hk : k < (windowLast t.num_rows centerRow windowOffset -
          windowBegin centerRow windowOffset + 1).toNat
      · rw [if_pos hk, List.getElem?_range hk]
        simp only [Option.map_some', Function.comp]
        have h := helem (windowBegin centerRow windowOffset + k) (by omega) (by omega)
        rw [elem_raw_values buf _ (by omega)] at h
        rw [← h]
        congr 1
        omega
      · rw [if_neg hk, List.getElem?_eq_none (by simp; omega)]
        rfl

/-- C20 on two single-chunk columns without nulls. On the `INT32` column
`[7, 8, 9]`, `Column<int32_t>(0)` gives the view `[7, 8, 9]`, its element 1 is
`Value(1) = 8`, and `Visit(1, col, -1)` passes `7`, `8`, the view's elements 0
and 1. On the `DOUBLE` column `[1.5, 2.0]`, `Column<double>(0)` gives the view
`[1.5, 2.0]`, whose element 0 is `Value(0) = 1.5`. -/
theorem C20_fast_path_agrees_witness :
    table3.Column .int32_t 0 = .ok (.raw_values [.int 7, .int 8, .int 9]) ∧
    (∃ x, (Ptr.raw_values [.int 7, .int 8, .int 9]).elem 1 = some x ∧
      table3.Value .int32_t 1 0 = .ok x) ∧
    (table3.Visit .int32_t 1 0 (-1) countVisitor 0).calls.map Prod.fst =
      [.int 7, .int 8] ∧
    tableD.Column .double 0 = .ok (.raw_values [.real 3 (-1), .real 2 0]) ∧
    (∃ x, (Ptr.raw_values [.real 3 (-1), .real 2 0]).elem 0 = some x ∧
      tableD.Value .double 0 0 = .ok x) :=
  have h := @C20_fast_path_agrees Nat .int32_t table3 0
    ⟨some .INT32, [intChunk [7, 8, 9]]⟩ (by decide) (by decide)
  have hv := h.1 (intChunk [7, 8, 9]) (by decide) (by decide) (by decide) (by decide)
    rfl rfl (by decide)
  have ha := h.2 [.int 7, .int 8, .int 9] hv
  have d := @C20_fast_path_agrees Nat .double tableD 0
    ⟨some .DOUBLE, [⟨[⟨false, .real 3 (-1)⟩, ⟨false, .real 2 0⟩]⟩]⟩ (by decide) (by decide)
  have dv := d.1 ⟨[⟨false, .real 3 (-1)⟩, ⟨false, .real 2 0⟩]⟩ (by decide) (by decide)
    (by decide) (by decide) rfl rfl (by decide)
  have da := d.2 [.real 3 (-1), .real 2 0] dv
  ⟨hv, ha.2.2.1 1 (by decide) (by decide),
    ((ha.2.2.2 1 (-1) countVisitor 0 (by decide) (by decide) (by decide) (by decide)).2
      (fun _ _ _ => rfl)).trans (by decide),
    dv, da.2.2.1 0 (by decide) (by decide)⟩

end OpenAlpha
